import Mathlib

namespace Swarmbot

/-!
Verification development for the swarmbot orchestration core.

The Python sources under `swarmbot/` are embedded shallowly:
* pure data manipulation (the Whiteboard `MemoryMap`, the `qmd_candidates`
  promotion scan, the embedded long-term store) becomes pure Lean functions
  over explicit state values;
* the external agent collaborator (`agent.step(prompt) -> string`, which may
  raise) is abstracted as a call-indexed oracle `Nat → Except String String`:
  an exception is `Except.error reason`.  Prompt text fed to the collaborator
  mixes in wall-clock time and boot files and cannot influence the modelled
  control flow, so behaviours are indexed by the call counter; any
  prompt-dependent agent behaviour is covered because each call site has a
  distinct (slot, counter) pair;
* Python `str.lower`/`str.upper`/`\w` are modelled on their ASCII fragment.
-/

/-- Python `needle in hay` substring test. -/
def strIn (needle hay : String) : Bool :=
  hay.data.tails.any (fun t => needle.data.isPrefixOf t)

/-- Python `str.lower()` (ASCII fragment). -/
def pyLower (s : String) : String := ⟨s.data.map Char.toLower⟩

/-- Python `str.upper()` (ASCII fragment). -/
def pyUpper (s : String) : String := ⟨s.data.map Char.toUpper⟩

/-- Python `str.strip()` (ASCII-whitespace fragment). -/
def pyStrip (s : String) : String :=
  ⟨((s.data.dropWhile Char.isWhitespace).reverse.dropWhile Char.isWhitespace).reverse⟩

/-- Python `x or default` for an optional string: `None` and `""` both fall
back to the default. -/
def pyOrStr (s : Option String) (d : String) : String :=
  match s with
  | some c => if c = "" then d else c
  | none => d

/-! ## Whiteboard values

`memory/qmd.py` stores arbitrary JSON-serialisable Python values in the
Whiteboard; the embedding uses a JSON-like value type. -/

inductive Val where
  | vnull : Val
  | vbool : Bool → Val
  | vint : Int → Val
  | vnum : ℚ → Val
  | vstr : String → Val
  | vlist : List Val → Val
  | vobj : List (String × Val) → Val

/-- The runtime type (Python `type(v)`) of a stored value, as a tag. -/
def Val.typeTag : Val → Nat
  | .vnull => 0
  | .vbool _ => 1
  | .vint _ => 2
  | .vnum _ => 3
  | .vstr _ => 4
  | .vlist _ => 5
  | .vobj _ => 6

/-- Two values have the same Python runtime type. -/
def sameType (a b : Val) : Bool := a.typeTag == b.typeTag

/-! ## MemoryMap (the Whiteboard), `memory/qmd.py` lines 14-86

The Python `_data` dict is embedded as a function `String → Option Val`
(insertion order never matters to the claims); `.copy()` of a mutable
default is the value itself in the pure model. -/

def MMap := String → Option Val

/-- `MemoryMap.update`: `self._data[key] = value`. -/
def mupdate (m : MMap) (k : String) (v : Val) : MMap :=
  fun q => if q = k then some v else m q

/-- `core_defaults` of `MemoryMap.ensure_task_frame`, in source order. -/
def core_defaults : List (String × Val) :=
  [("task_specification", Val.vobj []),
   ("execution_plan", Val.vobj []),
   ("current_state", Val.vstr "INIT"),
   ("loop_counter", Val.vint 0),
   ("completed_subtasks", Val.vlist []),
   ("pending_subtasks", Val.vlist []),
   ("intermediate_results", Val.vobj []),
   ("content_registry", Val.vlist []),
   ("checkpoint_data", Val.vobj []),
   ("qmd_candidates", Val.vlist [])]

/-- One step of `ensure_task_frame`: `if k not in self._data: self._data[k] = v`
(a fresh copy of the mutable default). -/
def insertAbsent (m : MMap) (kv : String × Val) : MMap :=
  if (m kv.1).isSome then m else mupdate m kv.1 kv.2

/-- `MemoryMap.ensure_task_frame`. -/
def ensure_task_frame (m : MMap) : MMap :=
  core_defaults.foldl insertAbsent m

/-- The `core_keys` set of `MemoryMap.clear` (note: it does NOT list
`qmd_candidates`; the key reappears only because `ensure_task_frame`
re-creates it afterwards). -/
def clear_core_keys : List String :=
  ["task_specification", "execution_plan", "current_state", "loop_counter",
   "completed_subtasks", "pending_subtasks", "intermediate_results",
   "content_registry", "checkpoint_data"]

/-- `MemoryMap.clear(preserve_core)`. -/
def mclear (preserve_core : Bool) (m : MMap) : MMap :=
  if preserve_core then
    ensure_task_frame (fun q => if clear_core_keys.contains q then m q else none)
  else
    ensure_task_frame (fun _ => none)

/-- `MemoryMap.__init__`: empty `_data`, then `ensure_task_frame`. -/
def memoryMapInit : MMap := ensure_task_frame (fun _ => none)

/-- The operations of claim C3's sequences. -/
inductive MOp where
  | update : String → Val → MOp
  | clear : Bool → MOp

def applyMOp (m : MMap) : MOp → MMap
  | .update k v => mupdate m k v
  | .clear pc => mclear pc m

def applyMOps (m : MMap) (ops : List MOp) : MMap := ops.foldl applyMOp m

/-- Every core-frame key is present. -/
def corePresent (m : MMap) : Bool :=
  core_defaults.all (fun kv => (m kv.1).isSome)

/-- Every core-frame key is present and its value has the type of the
declared default. -/
def coreFrameOk (m : MMap) : Bool :=
  core_defaults.all (fun kv =>
    match m kv.1 with
    | some v => sameType v kv.2
    | none => false)

/-- An update is well typed when any core-frame key it touches receives a
value of the key's declared type. -/
def opWellTyped : MOp → Bool
  | .update k v => (List.lookup k core_defaults).all (fun d => sameType v d)
  | .clear _ => true

/-! Helper lemmas about `ensure_task_frame`. -/

/-! ## The `qmd_candidates` promotion scan, `swarm/manager.py` lines 438-459

`_persist_log` walks the Whiteboard's `qmd_candidates` list and persists the
qualifying entries to the Long-Term Store via `persist_to_qmd(content,
collection)`.  A candidate dict is embedded as a record; a missing or `None`
`confidence_score` enters as `0` (Python `float(item.get(...) or 0)`); a
non-blank-content check and a lowercased status check guard the write. -/

structure Candidate where
  content : String
  confidence_score : ℚ
  verification_status : String
  collection : Option String := none

/-- The promotions `_persist_log` performs, as (content, collection) pairs in
scan order. -/
def promoteCandidates (candidates : List Candidate) : List (String × String) :=
  candidates.filterMap (fun item =>
    if pyStrip item.content = "" then none
    else if item.confidence_score ≤ (7 : ℚ)/10
        ∨ pyLower item.verification_status = "pending" then none
    else some (item.content, pyOrStr item.collection "core_memory"))

/-- The promotion condition the source actually implements. -/
def candidateQualifies (c : Candidate) : Bool :=
  (!decide (pyStrip c.content = "")) && decide ((7 : ℚ)/10 < c.confidence_score)
    && (!decide (pyLower c.verification_status = "pending"))

/-! ## EmbeddedQMD (the Long-Term Store), `memory/qmd_wrapper.py`

The SQLite file is embedded as explicit state: a `collections` table (unique
names, AUTOINCREMENT ids starting at 1), a documents table, and a clock for
`time.time()` (strictly increasing across inserts).  The model follows the
plain-table branch (`has_fts = false`): `LIKE %query%` substring filter,
`ORDER BY created_at DESC` (realised as the reverse of the insertion-ordered
filter, since `created_at` strictly increases), `LIMIT limit`.  The FTS5
branch delegates matching and ranking to SQLite itself (an external engine);
`_get_collection_id` behaves identically in both branches. -/

structure QDoc where
  collId : Nat
  content : String
  meta : String
  createdAt : Nat

structure QMD where
  collections : List (String × Nat)
  nextCollId : Nat
  documents : List QDoc
  clock : Nat

def emptyQMD : QMD := ⟨[], 1, [], 0⟩

/-- `EmbeddedQMD._get_collection_id`: look the name up; if absent, INSERT it
and return the fresh id. -/
def getCollectionId (s : QMD) (name : String) : Nat × QMD :=
  match List.lookup name s.collections with
  | some i => (i, s)
  | none =>
    (s.nextCollId,
     { s with
        collections := s.collections ++ [(name, s.nextCollId)],
        nextCollId := s.nextCollId + 1 })

/-- `EmbeddedQMD.add`. -/
def qmdAdd (s : QMD) (content collection meta : String) : QMD :=
  { (getCollectionId s collection).2 with
     documents := (getCollectionId s collection).2.documents ++
       [⟨(getCollectionId s collection).1, content, meta,
         (getCollectionId s collection).2.clock⟩],
     clock := (getCollectionId s collection).2.clock + 1 }

/-- `EmbeddedQMD.search` (plain-table branch). -/
def qmdSearch (s : QMD) (query : String) (collection : Option String) (limit : Nat) :
    List (String × String) × QMD :=
  match collection with
  | some c =>
    (((((getCollectionId s c).2.documents.filter
          (fun d => strIn query d.content && d.collId == (getCollectionId s c).1)).reverse).take
            limit).map (fun d => (d.content, d.meta)),
     (getCollectionId s c).2)
  | none =>
    ((((s.documents.filter (fun d => strIn query d.content)).reverse).take limit).map
        (fun d => (d.content, d.meta)),
     s)

/-- Well-formedness of a store state: every document's collection id and every
collections-table id was allocated (is below the AUTOINCREMENT counter). -/
def qmdWF (s : QMD) : Prop :=
  (∀ d ∈ s.documents, d.collId < s.nextCollId)
    ∧ (∀ p ∈ s.collections, p.2 < s.nextCollId)

/-! ## Agent slots and the orchestration pipeline, `swarm/manager.py`

A slot wraps one external agent.  The collaborator contract (spec §6) is
`agent.step(prompt) -> string`, synchronous, may raise; a behaviour is a
call-indexed oracle `Nat → Except String String` (`error` = the exception's
message).  Prompt strings mix in wall-clock time and boot-file text and only
feed the collaborator, so they are not materialised; a call-indexed oracle
covers every prompt-dependent agent, because along any concrete run each
(slot, call-counter) pair is distinct.  Phase 1 (boot) performs no agent
call and all its fallible steps sit in `try/except` blocks; phase 3
(consolidation) is one big `try/except` with no agent call; so the model
carries only the slot states and the Whiteboard writes of phase 2. -/

def AgentBeh := Nat → Except String String

structure Slot where
  role : String
  beh : AgentBeh
  calls : Nat

def advanceSlot (s : Slot) : Slot := { s with calls := s.calls + 1 }

/-- One `agent.step` call: consult the behaviour at the slot's call counter. -/
def callSlot (s : Slot) : Except String String × Slot :=
  (s.beh s.calls, advanceSlot s)

/-- The behaviour never raises (it may still answer the empty string). -/
def NeverRaises (b : AgentBeh) : Prop := ∀ n, ∃ v, b n = Except.ok v

def SlotsOk (slots : List Slot) : Prop := ∀ s ∈ slots, NeverRaises s.beh

/-- The default role roster of `SwarmSession._init_default_agents`
(`max_agents` defaults to 8, so all eight roles are used). -/
def defaultRoles : List String :=
  ["planner", "coder", "critic", "summarizer", "researcher", "analyst", "writer",
   "reviewer"]

def defaultSlots (b : AgentBeh) : List Slot :=
  defaultRoles.map (fun r => ⟨r, b, 0⟩)

/-- Result of one architecture run: the raw result string, the slots (call
counters advanced), and the Whiteboard writes performed. -/
structure ArchOut where
  result : String
  slots : List Slot
  wbWrites : List (String × String)

/-- `_chat_sequential`: every slot steps once on the growing context (the
context feeds only the prompt); agent exceptions are NOT caught here. -/
def chatSequentialGo : List Slot → Except String (List String × List Slot)
  | [] => Except.ok ([], [])
  | s :: rest =>
    match callSlot s with
    | (Except.error e, _) => Except.error e
    | (Except.ok reply, s2) =>
      match chatSequentialGo rest with
      | Except.error e => Except.error e
      | Except.ok (outs, rest2) =>
        Except.ok (("[" ++ s.role ++ "]\n" ++ reply) :: outs, s2 :: rest2)

def chatSequential (slots : List Slot) (input : String) : Except String (String × List Slot) :=
  match chatSequentialGo slots with
  | Except.error e => Except.error e
  | Except.ok (outs, slots2) => Except.ok (String.intercalate "\n\n" outs, slots2)

/-- The Whiteboard key `f"result_{slot.agent.ctx.role}_r{r}"` of
`_chat_concurrent._run_agent`. -/
def concurrentKey (role : String) (r : Nat) : String :=
  "result_" ++ role ++ "_r" ++ toString r

structure RoundOut where
  slots : List Slot
  writes : List (String × String)
  drafts : List String
  successes : List String

/-- One round of `_chat_concurrent`: every slot is submitted to the pool; a
raising agent is caught at `future.result()` and its contribution replaced by
`"[System] Agent failed: <e>"` in the round's drafts; only successful results
are written to the Whiteboard (under the role/round key) and appended to
`history_acc`.  The pool collects in completion order; the model uses
submission order, and the claims proved about this function (the set of keys
written, the per-slot substitution) do not depend on the order. -/
def runConcurrentRound : List Slot → Nat → RoundOut
  | [], _ => ⟨[], [], [], []⟩
  | s :: rest, r =>
    let res := callSlot s
    let o := runConcurrentRound rest r
    match res.1 with
    | Except.ok v =>
      ⟨res.2 :: o.slots, (concurrentKey s.role r, v) :: o.writes,
       ("[" ++ s.role ++ "]\n" ++ v) :: o.drafts,
       ("[" ++ s.role ++ "]\n" ++ v) :: o.successes⟩
    | Except.error e =>
      ⟨res.2 :: o.slots, o.writes, ("[System] Agent failed: " ++ e) :: o.drafts,
       o.successes⟩

/-- `rounds = 2 if "deep" in user_input.lower() or "research" in
user_input.lower() else 1`. -/
def roundsFor (input : String) : Nat :=
  if strIn "deep" (pyLower input) || strIn "research" (pyLower input) then 2 else 1

/-- Rounds `r, r+1, …, r+n-1`; returns (slots, whiteboard writes,
accumulated successes). -/
def runConcurrentRounds : List Slot → Nat → Nat → List Slot × List (String × String) × List String
  | slots, _, 0 => (slots, [], [])
  | slots, r, n+1 =>
    let o := runConcurrentRound slots r
    let rec2 := runConcurrentRounds o.slots (r+1) n
    (rec2.1, o.writes ++ rec2.2.1, o.successes ++ rec2.2.2)

/-- `_consensus_decision`: slot 0 (relabeled "consensus_moderator", restored
afterwards) is asked once; if the answer contains "insufficient info" it is
asked once more.  Neither call is guarded, so a raising judge propagates. -/
def consensusDecision (slots : List Slot) : Except String (String × List Slot) :=
  match slots with
  | [] => Except.error "IndexError"
  | judge :: rest =>
    match callSlot judge with
    | (Except.error e, _) => Except.error e
    | (Except.ok decision, j2) =>
      if strIn "insufficient info" (pyLower decision) then
        match callSlot j2 with
        | (Except.error e, _) => Except.error e
        | (Except.ok d2, j3) => Except.ok (d2, j3 :: rest)
      else Except.ok (decision, j2 :: rest)

/-- `_chat_concurrent`. -/
def chatConcurrent (slots : List Slot) (input : String) : Except String ArchOut :=
  let rr := runConcurrentRounds slots 0 (roundsFor input)
  match consensusDecision rr.1 with
  | Except.error e => Except.error e
  | Except.ok (d, slots2) => Except.ok ⟨d, slots2, rr.2.1⟩

/-! `_chat_mixture` and its round-count regex `\b([1-9]|10)\b`. -/

def wordChar (c : Char) : Bool := c.isAlphanum || c = '_'

/-- A regex `\b` word boundary at position `i` of `l` (ASCII `\w`). -/
def isBoundary (l : List Char) (i : Nat) : Bool :=
  let before := match i with
    | 0 => false
    | j+1 =>
      match l.get? j with
      | some ch => wordChar ch
      | none => false
  let after := match l.get? i with
    | some ch => wordChar ch
    | none => false
  before != after

/-- The alternation `([1-9]|10)` anchored by `\b` on both sides, attempted at
position `i`: a single digit 1-9 is preferred, "10" is the fallback. -/
def matchRoundsAt (l : List Char) (i : Nat) : Option Nat :=
  if isBoundary l i = true then
    match l.get? i with
    | some ch =>
      if '1' ≤ ch ∧ ch ≤ '9' ∧ isBoundary l (i+1) = true then
        some (ch.toNat - '0'.toNat)
      else if ch = '1' ∧ l.get? (i+1) = some '0' ∧ isBoundary l (i+2) = true then
        some 10
      else none
    | none => none
  else none

/-- `re.search(r"\b([1-9]|10)\b", r_resp)`: first matching position wins. -/
def findRoundsMatch (s : String) : Option Nat :=
  (List.range s.data.length).findSome? (matchRoundsAt s.data)

/-- One `_chat_mixture` round: failures become `"Error: <e>"` in the drafts;
only successes reach `history_acc`; no Whiteboard writes. -/
def mixtureRound : List Slot → List Slot × List String × List String
  | [] => ([], [], [])
  | s :: rest =>
    let res := callSlot s
    let o := mixtureRound rest
    match res.1 with
    | Except.ok v =>
      (res.2 :: o.1, ("[" ++ s.role ++ "]\n" ++ v) :: o.2.1,
       ("[" ++ s.role ++ "]\n" ++ v) :: o.2.2)
    | Except.error e =>
      (res.2 :: o.1, ("Error: " ++ e) :: o.2.1, o.2.2)

/-- The mixture round loop with the early-exit judge check after every round
but the last; the judge call is NOT wrapped in try/except, so it propagates
exceptions. -/
def mixtureLoop : List Slot → List String → Nat → Except String (List Slot × List String)
  | slots, hist, 0 => Except.ok (slots, hist)
  | slots, hist, n+1 =>
    let o := mixtureRound slots
    let hist2 := hist ++ o.2.2
    if n = 0 then Except.ok (o.1, hist2)
    else
      match o.1 with
      | [] => Except.error "IndexError"
      | j :: rest =>
        match callSlot j with
        | (Except.error e, _) => Except.error e
        | (Except.ok decision, j2) =>
          if strIn "YES" (pyUpper decision) && decide (decision.data.length < 20) then
            Except.ok (j2 :: rest, hist2)
          else mixtureLoop (j2 :: rest) hist2 n

/-- `_chat_mixture`: round negotiation (guarded by try/except, default 5
rounds), refinement loop, extension check (one judge call whose parsed result
leads to a no-op — the dead extension branch), consensus. -/
def chatMixture (slots : List Slot) (input : String) : Except String ArchOut :=
  match slots with
  | [] => Except.error "IndexError"
  | planner :: rest =>
    let pc := callSlot planner
    let rounds := match pc.1 with
      | Except.error _ => 5
      | Except.ok resp => (findRoundsMatch resp).getD 5
    match mixtureLoop (pc.2 :: rest) [] rounds with
    | Except.error e => Except.error e
    | Except.ok (slots2, _hist) =>
      match slots2 with
      | [] => Except.error "IndexError"
      | j :: rest2 =>
        let jc := callSlot j
        match consensusDecision (jc.2 :: rest2) with
        | Except.error e => Except.error e
        | Except.ok (d, slots3) => Except.ok ⟨d, slots3, []⟩

/-- One round-robin `_chat_group_chat` round; each agent's context is only the
preceding reply (prompt-only, not materialised); unguarded calls. -/
def groupChatRound : List Slot → Nat → Except String (List Slot × List String)
  | [], _ => Except.ok ([], [])
  | s :: rest, r =>
    match callSlot s with
    | (Except.error e, _) => Except.error e
    | (Except.ok reply, s2) =>
      match groupChatRound rest r with
      | Except.error e => Except.error e
      | Except.ok (rest2, outs) =>
        Except.ok (s2 :: rest2,
          ("[round " ++ toString (r+1) ++ " - " ++ s.role ++ "]\n" ++ reply) :: outs)

def groupChatRounds : List Slot → Nat → Nat → Except String (List Slot × List String)
  | slots, _, 0 => Except.ok (slots, [])
  | slots, r, n+1 =>
    match groupChatRound slots r with
    | Except.error e => Except.error e
    | Except.ok (slots2, outs) =>
      match groupChatRounds slots2 (r+1) n with
      | Except.error e => Except.error e
      | Except.ok (slots3, outs2) => Except.ok (slots3, outs ++ outs2)

/-- `_chat_group_chat` (fixed 3 rounds), feeding consensus. -/
def chatGroupChat (slots : List Slot) (input : String) : Except String ArchOut :=
  match groupChatRounds slots 0 3 with
  | Except.error e => Except.error e
  | Except.ok (slots2, _outs) =>
    match consensusDecision slots2 with
    | Except.error e => Except.error e
    | Except.ok (d, slots3) => Except.ok ⟨d, slots3, []⟩

def hierarchicalWorkers : List Slot → Except String (List Slot × List String)
  | [] => Except.ok ([], [])
  | s :: rest =>
    match callSlot s with
    | (Except.error e, _) => Except.error e
    | (Except.ok reply, s2) =>
      match hierarchicalWorkers rest with
      | Except.error e => Except.error e
      | Except.ok (rest2, outs) =>
        Except.ok (s2 :: rest2, ("[worker-" ++ s.role ++ "]\n" ++ reply) :: outs)

/-- `_chat_hierarchical`: director plans, workers execute, director
summarizes; returned directly (no consensus pass); unguarded calls. -/
def chatHierarchical (slots : List Slot) (input : String) : Except String ArchOut :=
  match slots with
  | [] => Except.error "IndexError"
  | director :: workers =>
    match callSlot director with
    | (Except.error e, _) => Except.error e
    | (Except.ok plan, d2) =>
      match hierarchicalWorkers workers with
      | Except.error e => Except.error e
      | Except.ok (workers2, wouts) =>
        match callSlot d2 with
        | (Except.error e, _) => Except.error e
        | (Except.ok summary, d3) =>
          Except.ok ⟨String.intercalate "\n\n"
              ((("[director-plan]\n" ++ plan) :: wouts)
                ++ ["[director-summary]\n" ++ summary]),
            d3 :: workers2, []⟩

/-! The generic state-machine executor, `statemachine/engine.py`. -/

structure SMState where
  name : String
  agentIdx : Nat
  description : String
  transitions : List (String × String)

/-- Instrumented outcome of `StateMachine.run`: `output` is the Python return
value; `history` the state-tagged responses; `visited` the ghost trace of
`current_state` at each loop entry. -/
structure SMOutcome where
  output : String
  history : List String
  visited : List String
  pool : List Slot

def callPool (pool : List Slot) (i : Nat) : Except String String × List Slot :=
  match pool.get? i with
  | none => (Except.error "IndexError", pool)
  | some s => ((callSlot s).1, pool.set i (callSlot s).2)

def smLookup (states : List SMState) (nm : String) : Option SMState :=
  states.find? (fun st => st.name == nm)

/-- `StateMachine.run`'s `while step < max_steps` loop, fuel = remaining
steps.  A missing current state returns the literal error string (dropping
the history); a resolved transition loops; otherwise the joined history is
returned.  Agent calls (the state's own and the routing call) are unguarded. -/
def smRunGo (states : List SMState) :
    Nat → String → List String → List String → List Slot → Except String SMOutcome
  | 0, _, hist, visited, pool =>
    Except.ok ⟨String.intercalate "\n\n" hist, hist, visited, pool⟩
  | fuel+1, cur, hist, visited, pool =>
    match smLookup states cur with
    | none =>
      Except.ok ⟨"Error: State " ++ cur ++ " not found.", hist, visited ++ [cur], pool⟩
    | some st =>
      match callPool pool st.agentIdx with
      | (Except.error e, _) => Except.error e
      | (Except.ok response, pool2) =>
        let hist2 := hist ++ ["[" ++ st.name ++ "] " ++ response]
        if st.transitions = [] then
          Except.ok ⟨String.intercalate "\n\n" hist2, hist2, visited ++ [cur], pool2⟩
        else if st.transitions.length = 1
            ∧ (List.lookup "default" st.transitions).isSome = true then
          smRunGo states fuel ((List.lookup "default" st.transitions).getD "") hist2
            (visited ++ [cur]) pool2
        else
          match callPool pool2 st.agentIdx with
          | (Except.error e, _) => Except.error e
          | (Except.ok decRaw, pool3) =>
            match List.lookup (pyStrip decRaw) st.transitions with
            | some nxt => smRunGo states fuel nxt hist2 (visited ++ [cur]) pool3
            | none =>
              match List.lookup "default" st.transitions with
              | some nxt => smRunGo states fuel nxt hist2 (visited ++ [cur]) pool3
              | none =>
                Except.ok ⟨String.intercalate "\n\n" hist2, hist2, visited ++ [cur], pool3⟩

def smRun (states : List SMState) (initial : String) (pool : List Slot)
    (maxSteps : Nat) : Except String SMOutcome :=
  smRunGo states maxSteps initial [] [] pool

/-- `_chat_state_machine`'s hardcoded demo graph: coding (agents[1]) with a
single default transition to review (agents[2]); review branches PASS→end,
FAIL→coding; "'end' state implicitly handling return" — `end` is never added
to the state map. -/
def smDemoStates : List SMState :=
  [⟨"coding", 0, "Write code", [("default", "review")]⟩,
   ⟨"review", 1, "Review code", [("PASS", "end"), ("FAIL", "coding")]⟩]

def chatStateMachine (slots : List Slot) (input : String) : Except String ArchOut :=
  match slots with
  | s0 :: s1 :: s2 :: rest =>
    match smRun smDemoStates "coding" [s1, s2] 10 with
    | Except.error e => Except.error e
    | Except.ok o =>
      Except.ok ⟨o.output, s0 :: o.pool.getD 0 s1 :: o.pool.getD 1 s2 :: rest, []⟩
  | _ => Except.error "IndexError"

def seqToArch (r : Except String (String × List Slot)) : Except String ArchOut :=
  match r with
  | Except.error e => Except.error e
  | Except.ok p => Except.ok ⟨p.1, p.2, []⟩

/-- `_chat_swarm_router`: bilingual keyword dispatch. -/
def chatSwarmRouter (slots : List Slot) (input : String) : Except String ArchOut :=
  if strIn "并行" input || strIn "many" (pyLower input) then chatConcurrent slots input
  else if strIn "计划" input || strIn "roadmap" (pyLower input) then
    chatHierarchical slots input
  else seqToArch (chatSequential slots input)

/-- `_chat_long_horizon`: "Placeholder for complex long horizon logic" — the
body is exactly `return self._chat_sequential(session, user_input)`. -/
def chatLongHorizon (slots : List Slot) (input : String) :
    Except String (String × List Slot) :=
  chatSequential slots input

/-- Phase-2 dispatch of `chat()` for the non-auto architectures, in source
order, with the source's `else: concurrent` default. -/
def archPhaseNA (arch : String) (slots : List Slot) (input : String) :
    Except String ArchOut :=
  if arch = "sequential" then seqToArch (chatSequential slots input)
  else if arch = "concurrent" then chatConcurrent slots input
  else if arch = "mixture" then chatMixture slots input
  else if arch = "group_chat" then chatGroupChat slots input
  else if arch = "hierarchical" then chatHierarchical slots input
  else if arch = "swarm_router" then chatSwarmRouter slots input
  else if arch = "long_horizon" then seqToArch (chatLongHorizon slots input)
  else if arch = "state_machine" then chatStateMachine slots input
  else chatConcurrent slots input

/-- `_master_agent_interpret`: slot 0 becomes the "master" voice (role
restored afterwards); its single step call is unguarded. -/
def chatInterpret (slots : List Slot) : Except String (String × List Slot) :=
  match slots with
  | [] => Except.error "IndexError"
  | m :: rest =>
    match callSlot m with
    | (Except.error e, _) => Except.error e
    | (Except.ok resp, m2) => Except.ok (resp, m2 :: rest)

def fallbackMessage : String := "Swarmbot 没有生成可用回答，请稍后重试或简化你的问题。"

/-- The tail of `chat()`: interpretation result unless blank, else the raw
result, else the literal apology. -/
def chatFinal (swarmResult master : String) : String :=
  if pyStrip master = "" then
    (if pyStrip swarmResult = "" then fallbackMessage else swarmResult)
  else master

/-- `chat()` for a session whose architecture is not "auto": boot (no agent
calls, all fallible steps in try/except), architecture phase, consolidation
(one big try/except, no agent calls), interpretation, fallback chain. -/
def chatPipelineNA (arch : String) (slots : List Slot) (input : String) :
    Except String (String × List Slot × List (String × String)) :=
  match archPhaseNA arch slots input with
  | Except.error e => Except.error e
  | Except.ok o =>
    match chatInterpret o.slots with
    | Except.error e => Except.error e
    | Except.ok (master, slots2) => Except.ok (chatFinal o.result master, slots2, o.wbWrites)

/-! `_chat_auto`'s role-list parsing: `re.search(r"\[(.*?)\]", resp,
re.DOTALL)` (first '[' up to the next ']'), split on ',', then
`r.strip().strip("'").strip('"')`. -/

def afterFirst : List Char → Char → Option (List Char)
  | [], _ => none
  | x :: xs, c => if x = c then some xs else afterFirst xs c

def upTo : List Char → Char → Option (List Char)
  | [], _ => none
  | x :: xs, c => if x = c then some [] else (upTo xs c).map (fun t => x :: t)

/-- Python `str.split(sep)` for a one-character separator (never returns an
empty list). -/
def splitChar (c : Char) : List Char → List (List Char)
  | [] => [[]]
  | x :: xs =>
    if x = c then [] :: splitChar c xs
    else
      match splitChar c xs with
      | [] => [[x]]
      | h :: t => (x :: h) :: t

/-- Python `str.strip(ch)`. -/
def stripChar (c : Char) (s : String) : String :=
  ⟨((s.data.dropWhile (· = c)).reverse.dropWhile (· = c)).reverse⟩

def parseRolesResp (resp : String) : Option (List String) :=
  (afterFirst resp.data '[').bind (fun rest =>
    (upTo rest ']').map (fun grp =>
      (splitChar ',' grp).map (fun r =>
        stripChar '"' (stripChar '\'' (pyStrip ⟨r⟩)))))

/-- `SwarmSession.resize_swarm`: grow with fresh `worker-(i+1)` agents (their
behaviours drawn from the `supply`), or truncate. -/
def mkWorkerSlot (supply : Nat → AgentBeh) (i : Nat) : Slot :=
  ⟨"worker-" ++ toString (i+1), supply i, 0⟩

def resizeSwarm (supply : Nat → AgentBeh) (slots : List Slot) (target : Nat) : List Slot :=
  if slots.length < target then
    slots ++ (List.range (target - slots.length)).map
      (fun j => mkWorkerSlot supply (slots.length + j))
  else slots.take target

/-- `for i, slot in enumerate(self.agents)`: slot `i` takes `new_roles[i]`
when `i < len(new_roles)`, else the role "observer". -/
def assignRoles : List Slot → List String → List Slot
  | [], _ => []
  | s :: rest, [] => { s with role := "observer" } :: assignRoles rest []
  | s :: rest, ro :: more => { s with role := ro } :: assignRoles rest more

/-- `SwarmSession.reassign_roles` (the skill/permission table only shapes
prompts and tool exposure, outside this model). -/
def reassignRoles (supply : Nat → AgentBeh) (slots : List Slot) (newRoles : List String) :
    List Slot :=
  assignRoles (resizeSwarm supply slots (min newRoles.length 10)) newRoles

/-- `_chat_auto`: architecture selection (guarded, default concurrent), role
negotiation (guarded), then a recursive `chat()` with the now-fixed
architecture; the recursion cannot reach "auto" again. -/
def chatAuto (supply : Nat → AgentBeh) (slots : List Slot) (input : String) :
    Except String ArchOut :=
  match slots with
  | [] => Except.error "IndexError"
  | planner :: rest =>
    let pc := callSlot planner
    let arch := match pc.1 with
      | Except.error _ => "concurrent"
      | Except.ok resp =>
        let a := pyLower (pyStrip resp)
        if strIn "mixture" a then "mixture"
        else if strIn "group" a then "group_chat"
        else if strIn "hierarchical" a then "hierarchical"
        else "concurrent"
    let rc := callSlot pc.2
    let slots2 := match rc.1 with
      | Except.error _ => rc.2 :: rest
      | Except.ok resp2 =>
        match parseRolesResp resp2 with
        | none => rc.2 :: rest
        | some roles => reassignRoles supply (rc.2 :: rest) roles
    match chatPipelineNA arch slots2 input with
    | Except.error e => Except.error e
    | Except.ok (res, slots3, ws) => Except.ok ⟨res, slots3, ws⟩

/-- `SwarmManager.chat` (phases 1-4).  For "auto", the architecture phase is
the full recursive `chat()` with the chosen architecture, after which the
outer call still runs consolidation and interpretation. -/
def chatPipeline (supply : Nat → AgentBeh) (arch : String) (slots : List Slot)
    (input : String) : Except String (String × List Slot × List (String × String)) :=
  if arch = "auto" then
    match chatAuto supply slots input with
    | Except.error e => Except.error e
    | Except.ok o =>
      match chatInterpret o.slots with
      | Except.error e => Except.error e
      | Except.ok (master, slots2) =>
        Except.ok (chatFinal o.result master, slots2, o.wbWrites)
  else chatPipelineNA arch slots input

/-! Lemmas: the architectures return normally whenever no agent call raises,
and the slot pool keeps its shape (behaviours unchanged, counters advanced). -/

/-- The keys `_chat_concurrent` writes for rounds `r, …, r+n-1` over a fixed
role list, one per (role, round), in submission order. -/
def expectedKeys (roles : List String) : Nat → Nat → List String
  | _, 0 => []
  | r, n+1 => roles.map (fun ro => concurrentKey ro r) ++ expectedKeys roles (r+1) n

/-- A collaborator whose `step` raises on every call. -/
def alwaysRaise : AgentBeh := fun _ => Except.error "boom"

/-- A collaborator that always returns the string `s`. -/
def okBeh (s : String) : AgentBeh := fun _ => Except.ok s

/-- A collaborator whose first call raises and whose later calls answer. -/
def failThenOk : AgentBeh := fun n => if n = 0 then Except.error "boom" else Except.ok "fine"

/-! State-machine routing scenario of §8 (C5). -/

/-- The claim's scripted agent, taken literally: the first `step` call answers
"FAIL", every later call answers "PASS". -/
def smScript : AgentBeh :=
  fun n => Except.ok (if n = 0 then "FAIL" else "PASS")

/-- The same intent aligned with the engine's double-call structure (each
routed state consumes one task call and one routing call): the first routing
call (call 2) answers "FAIL", the second (call 5) answers "PASS". -/
def smAlignedScript : AgentBeh :=
  fun n => Except.ok (if n = 2 then "FAIL" else if n = 5 then "PASS" else "work")

/-- The 2-state graph of the claim: A →(default) B; B →(PASS) end, (FAIL) A;
`end` has no entry in the state map, as in `_chat_state_machine`. -/
def smABStates : List SMState :=
  [⟨"A", 0, "do A", [("default", "B")]⟩,
   ⟨"B", 0, "check", [("PASS", "end"), ("FAIL", "A")]⟩]

/-! The hierarchical task graph of `middleware/long_horizon.py`
(`HierarchicalTaskGraph.execute`). -/

structure SubTask where
  id : String
  description : String
  dependencies : List String
  result : String

/-- Running state of `execute`: the (insertion-ordered) task map, the
`completed` set, the `results` accumulator, and ghost instrumentation — the
ids passed to `agent.step`, in call order, plus the oracle call counters for
`find_best_skill` and `agent.step`. -/
structure TGState where
  tasks : List SubTask
  completed : List String
  results : List String
  invocations : List String
  skillCalls : Nat
  agentCalls : Nat

def tgSetResult (tasks : List SubTask) (tid res : String) : List SubTask :=
  tasks.map (fun t => if t.id = tid then { t with result := res } else t)

/-- One iteration of the `for task_id, task in self.tasks.items()` body.
`skillO` abstracts `find_best_skill` (a skill name per call), `agentO`
abstracts `agent.step` (which catches its own exceptions, so it is total). -/
def tgStep (skillO agentO : Nat → String) (acc : TGState × Bool) (t : SubTask) :
    TGState × Bool :=
  let st := acc.1
  if st.completed.contains t.id then acc
  else if t.dependencies.all (fun d => st.completed.contains d) then
    let skill := skillO st.skillCalls
    let res := agentO st.agentCalls
    (⟨tgSetResult st.tasks t.id res,
      st.completed ++ [t.id],
      st.results ++ ["## Task [" ++ t.id ++ "] - " ++ skill ++ "\n" ++ res],
      st.invocations ++ [t.id],
      st.skillCalls + 1,
      st.agentCalls + 1⟩, true)
  else acc

/-- One full pass over the task map (ids and dependency lists never change
during `execute`, so folding over the pass-entry snapshot matches Python's
live-dict iteration). -/
def tgPass (skillO agentO : Nat → String) (st : TGState) : TGState × Bool :=
  st.tasks.foldl (tgStep skillO agentO) (st, false)

/-- The `while len(completed) < len(self.tasks) and cycles < max_cycles`
loop; fuel is the number of cycles still allowed, and a pass with no
progress breaks out. -/
def tgLoop (skillO agentO : Nat → String) : Nat → TGState → TGState
  | 0, st => st
  | fuel+1, st =>
    if st.completed.length < st.tasks.length then
      match tgPass skillO agentO st with
      | (st2, true) => tgLoop skillO agentO fuel st2
      | (st2, false) => st2
    else st

def tgInit (tasks : List SubTask) : TGState := ⟨tasks, [], [], [], 0, 0⟩

def tgExecute (skillO agentO : Nat → String) (tasks : List SubTask) : TGState :=
  tgLoop skillO agentO (tasks.length * 2) (tgInit tasks)

/-- The string `execute` returns. -/
def tgOutput (st : TGState) : String := String.intercalate "\n\n" st.results

def tgIds (tasks : List SubTask) : List String := tasks.map (fun t => t.id)

/-- The immutable part of a task entry: its id and dependency list. -/
def tgPair (t : SubTask) : String × List String := (t.id, t.dependencies)

/-- Loop invariant of `execute`: `completed` and the invocation trace agree,
no id is invoked twice, the task map keeps its ids and dependency lists, each
invocation is exactly one `agent.step` call, every invoked task exists in the
original map with all dependencies among the map's ids, and every results
entry carries the literal "## Task [" header. -/
def TGInv (tasks0 : List SubTask) (st : TGState) : Prop :=
  st.completed = st.invocations
  ∧ st.invocations.Nodup
  ∧ st.tasks.map tgPair = tasks0.map tgPair
  ∧ st.invocations.length = st.agentCalls
  ∧ (∀ i ∈ st.invocations, ∃ t ∈ tasks0, t.id = i
      ∧ ∀ d ∈ t.dependencies, d ∈ tgIds tasks0)
  ∧ (∀ r ∈ st.results, ∃ l, r.data = ("## Task [").data ++ l)

theorem insertAbsent_apply (m : MMap) (kv : String × Val) (q : String) :
    (insertAbsent m kv) q =
      if (m kv.1).isSome then m q else (if q = kv.1 then some kv.2 else m q) := by
  unfold insertAbsent mupdate
  by_cases hk : (m kv.1).isSome = true <;> simp [hk]

theorem foldl_insertAbsent_of_isSome (l : List (String × Val)) (m : MMap) (q : String)
    (h : (m q).isSome = true) : (l.foldl insertAbsent m) q = m q := by
  induction l generalizing m with
  | nil => rfl
  | cons kv rest ih =>
    rw [List.foldl_cons]
    have hq : (insertAbsent m kv) q = m q := by
      rw [insertAbsent_apply]
      by_cases hk : (m kv.1).isSome = true
      · simp [hk]
      · by_cases hqe : q = kv.1
        · subst hqe; exact absurd h hk
        · simp [hk, hqe]
    rw [ih (insertAbsent m kv) (by rw [hq]; exact h), hq]

theorem foldl_insertAbsent_cases (l : List (String × Val)) (m : MMap) (q : String) :
    (l.foldl insertAbsent m) q = m q ∨
      ∃ d, (q, d) ∈ l ∧ (l.foldl insertAbsent m) q = some d := by
  induction l generalizing m with
  | nil => exact Or.inl rfl
  | cons kv rest ih =>
    rw [List.foldl_cons]
    rcases ih (insertAbsent m kv) with h | ⟨d, hd, he⟩
    · rw [h, insertAbsent_apply]
      by_cases hk : (m kv.1).isSome = true
      · refine Or.inl ?_
        simp [hk]
      · by_cases hqe : q = kv.1
        · exact Or.inr ⟨kv.2, by subst hqe; exact List.mem_cons_self _ _, by simp [hk, hqe]⟩
        · refine Or.inl ?_
          simp [hk, hqe]
    · exact Or.inr ⟨d, List.mem_cons_of_mem _ hd, he⟩

theorem foldl_insertAbsent_mem (l : List (String × Val)) (m : MMap) (q : String) (v : Val)
    (h : (q, v) ∈ l) : ((l.foldl insertAbsent m) q).isSome = true := by
  induction l generalizing m with
  | nil => cases h
  | cons kv rest ih =>
    rw [List.foldl_cons]
    rcases List.mem_cons.mp h with heq | htail
    · have hq : ((insertAbsent m kv) q).isSome = true := by
        rw [insertAbsent_apply]
        have hqk : q = kv.1 := by rw [← heq]
        by_cases hk : (m kv.1).isSome = true
        · simp only [hk, if_true]
          rw [hqk]; exact hk
        · simp [hk, hqk]
      rw [foldl_insertAbsent_of_isSome rest _ q hq]
      exact hq
    · exact ih _ htail

/-- In `core_defaults`, a key determines its default (no key repeats). -/
theorem core_defaults_unique :
    ∀ p ∈ core_defaults, ∀ p2 ∈ core_defaults, p.1 = p2.1 → sameType p.2 p2.2 = true := by
  decide

/-- Presence of the core frame after `ensure_task_frame`, whatever the map. -/
theorem corePresent_ensure (m : MMap) : corePresent (ensure_task_frame m) = true := by
  unfold corePresent
  rw [List.all_eq_true]
  intro kv hkv
  exact foldl_insertAbsent_mem core_defaults m kv.1 kv.2 (by exact hkv)

theorem corePresent_update (m : MMap) (k : String) (v : Val)
    (h : corePresent m = true) : corePresent (mupdate m k v) = true := by
  unfold corePresent at h ⊢
  rw [List.all_eq_true] at h ⊢
  intro kv hkv
  unfold mupdate
  by_cases hqe : kv.1 = k
  · simp [hqe]
  · simp only [hqe, if_false]
    exact h kv hkv

theorem coreFrameOk_ensure (m : MMap)
    (h : ∀ q v, m q = some v → ∀ kv ∈ core_defaults, kv.1 = q → sameType v kv.2 = true) :
    coreFrameOk (ensure_task_frame m) = true := by
  unfold coreFrameOk
  rw [List.all_eq_true]
  intro kv hkv
  have hpres := foldl_insertAbsent_mem core_defaults m kv.1 kv.2 (by exact hkv)
  rcases foldl_insertAbsent_cases core_defaults m kv.1 with hc | ⟨d, hd, he⟩
  · unfold ensure_task_frame
    rw [hc] at hpres ⊢
    rcases Option.isSome_iff_exists.mp hpres with ⟨v, hv⟩
    rw [hv]
    exact h kv.1 v hv kv hkv rfl
  · unfold ensure_task_frame
    rw [he]
    exact core_defaults_unique (kv.1, d) hd kv hkv rfl

theorem coreFrameOk_imp_present (m : MMap) (h : coreFrameOk m = true) :
    corePresent m = true := by
  unfold coreFrameOk at h
  unfold corePresent
  rw [List.all_eq_true] at h ⊢
  intro kv hkv
  have := h kv hkv
  cases hm : m kv.1 with
  | none => rw [hm] at this; simp at this
  | some v => simp

theorem sameType_trans (a b c : Val) (h1 : sameType a b = true) (h2 : sameType b c = true) :
    sameType a c = true := by
  unfold sameType at *
  rw [beq_iff_eq] at h1 h2 ⊢
  rw [h1, h2]

/-- Looking a core key up in `core_defaults` finds a default of the declared
type (provable because no key repeats). -/
theorem core_defaults_lookup_type :
    ∀ p ∈ core_defaults, (List.lookup p.1 core_defaults).all (fun d => sameType d p.2) = true
      ∧ (List.lookup p.1 core_defaults).isSome = true := by
  decide

theorem coreFrameOk_update (m : MMap) (k : String) (v : Val)
    (hm : coreFrameOk m = true) (hop : opWellTyped (MOp.update k v) = true) :
    coreFrameOk (mupdate m k v) = true := by
  unfold coreFrameOk at hm ⊢
  rw [List.all_eq_true] at hm ⊢
  intro kv hkv
  by_cases hqe : kv.1 = k
  · have hup : mupdate m k v kv.1 = some v := by simp [mupdate, hqe]
    rw [hup]
    simp only [opWellTyped] at hop
    obtain ⟨htyp, hsome⟩ := core_defaults_lookup_type kv hkv
    rcases Option.isSome_iff_exists.mp hsome with ⟨d, hd⟩
    have hd2 : List.lookup k core_defaults = some d := by rw [← hqe]; exact hd
    rw [hd2] at hop
    rw [hd] at htyp
    simp only [Option.all] at hop htyp
    exact sameType_trans v d kv.2 hop htyp
  · have hup : mupdate m k v kv.1 = m kv.1 := by simp [mupdate, hqe]
    rw [hup]
    exact hm kv hkv

theorem coreFrameOk_clear (pc : Bool) (m : MMap) (hm : coreFrameOk m = true) :
    coreFrameOk (mclear pc m) = true := by
  cases pc with
  | false =>
    show coreFrameOk (ensure_task_frame (fun _ => none)) = true
    refine coreFrameOk_ensure _ ?_
    intro q v hv
    cases hv
  | true =>
    show coreFrameOk
      (ensure_task_frame (fun q => if clear_core_keys.contains q then m q else none)) = true
    refine coreFrameOk_ensure _ ?_
    intro q v hv kv hkv hk
    by_cases hc : clear_core_keys.contains q = true
    · rw [if_pos hc] at hv
      unfold coreFrameOk at hm
      rw [List.all_eq_true] at hm
      have := hm kv hkv
      rw [hk, hv] at this
      exact this
    · rw [if_neg hc] at hv
      cases hv

theorem coreFrameOk_init : coreFrameOk memoryMapInit = true := by decide

theorem corePresent_clear (pc : Bool) (m : MMap) :
    corePresent (mclear pc m) = true := by
  cases pc with
  | false =>
    show corePresent (ensure_task_frame (fun _ => none)) = true
    exact corePresent_ensure _
  | true =>
    show corePresent
      (ensure_task_frame (fun q => if clear_core_keys.contains q then m q else none)) = true
    exact corePresent_ensure _

theorem corePresent_applyMOps (ops : List MOp) (m : MMap) (h : corePresent m = true) :
    corePresent (applyMOps m ops) = true := by
  induction ops generalizing m with
  | nil => exact h
  | cons op rest ih =>
    show corePresent (applyMOps (applyMOp m op) rest) = true
    refine ih _ ?_
    cases op with
    | update k v => exact corePresent_update m k v h
    | clear pc => exact corePresent_clear pc m

theorem coreFrameOk_applyMOps (ops : List MOp) (m : MMap)
    (h : coreFrameOk m = true) (hops : ∀ op ∈ ops, opWellTyped op = true) :
    coreFrameOk (applyMOps m ops) = true := by
  induction ops generalizing m with
  | nil => exact h
  | cons op rest ih =>
    show coreFrameOk (applyMOps (applyMOp m op) rest) = true
    refine ih _ ?_ (fun o ho => hops o (List.mem_cons_of_mem _ ho))
    cases op with
    | update k v => exact coreFrameOk_update m k v h (hops _ (List.mem_cons_self _ _))
    | clear pc => exact coreFrameOk_clear pc m h

/-- C3: the claim as stated fails.  The Whiteboard never repairs the TYPE of a
core-frame key an `update` has overwritten: after the op sequence
`[update "loop_counter" "oops"]` the key `loop_counter` is present but holds a
string, not its declared integer type. -/
theorem whiteboard_frame_cex :
    applyMOps memoryMapInit [MOp.update "loop_counter" (Val.vstr "oops")] "loop_counter"
        = some (Val.vstr "oops")
      ∧ coreFrameOk (applyMOps memoryMapInit [MOp.update "loop_counter" (Val.vstr "oops")])
        = false
      ∧ corePresent (applyMOps memoryMapInit [MOp.update "loop_counter" (Val.vstr "oops")])
        = true :=
  ⟨rfl, rfl, rfl⟩

/-- C3 (amended): for any sequence of `update`/`clear` operations on a fresh
`MemoryMap`, every one of the ten core-frame keys is present afterwards; and
when every update that touches a core-frame key stores a value of the key's
declared type, every core-frame key also holds a value of its declared type.
(The no-aliasing clause concerns Python object identity, which has no content
in this pure embedding: `ensure_task_frame` installs the default value itself
afresh on every re-initialization.) -/
theorem whiteboard_frame_amended (ops : List MOp) :
    corePresent (applyMOps memoryMapInit ops) = true
      ∧ ((∀ op ∈ ops, opWellTyped op = true) →
          coreFrameOk (applyMOps memoryMapInit ops) = true) :=
  ⟨corePresent_applyMOps ops memoryMapInit
      (coreFrameOk_imp_present memoryMapInit coreFrameOk_init),
   fun h => coreFrameOk_applyMOps ops memoryMapInit coreFrameOk_init h⟩

/-- C3 witness: a concrete op sequence (a well-typed counter update, a
core-preserving clear, a scratch-key update) keeps the frame present and
well typed. -/
theorem whiteboard_frame_witness :
    corePresent (applyMOps memoryMapInit
        [MOp.update "loop_counter" (Val.vint 5), MOp.clear true,
         MOp.update "note" (Val.vstr "x")]) = true
      ∧ coreFrameOk (applyMOps memoryMapInit
        [MOp.update "loop_counter" (Val.vint 5), MOp.clear true,
         MOp.update "note" (Val.vstr "x")]) = true :=
  ⟨(whiteboard_frame_amended _).1, (whiteboard_frame_amended _).2 (by decide)⟩

theorem candidateQualifies_iff (c : Candidate) :
    candidateQualifies c = true ↔
      (pyStrip c.content ≠ "" ∧ (7 : ℚ)/10 < c.confidence_score
        ∧ pyLower c.verification_status ≠ "pending") := by
  unfold candidateQualifies
  constructor
  · intro h
    simp only [Bool.and_eq_true, Bool.not_eq_true', decide_eq_false_iff_not,
      decide_eq_true_eq] at h
    exact ⟨h.1.1, h.1.2, h.2⟩
  · intro ⟨h1, h2, h3⟩
    simp only [Bool.and_eq_true, Bool.not_eq_true', decide_eq_false_iff_not,
      decide_eq_true_eq]
    exact ⟨⟨h1, h2⟩, h3⟩

theorem filterMap_as_filter_map {α β : Type} (f : α → Option β) (p : α → Bool) (g : α → β)
    (hf : ∀ a, f a = if p a then some (g a) else none) (l : List α) :
    l.filterMap f = (l.filter p).map g := by
  induction l with
  | nil => rfl
  | cons a t ih =>
    rw [List.filterMap_cons, List.filter_cons, hf a]
    by_cases hp : p a = true
    · simp [hp, ih]
    · simp [hp, ih]

theorem promoteCandidates_eq (cs : List Candidate) :
    promoteCandidates cs =
      (cs.filter candidateQualifies).map
        (fun c => (c.content, pyOrStr c.collection "core_memory")) := by
  refine filterMap_as_filter_map _ _ _ ?_ cs
  intro c
  unfold candidateQualifies
  by_cases h1 : pyStrip c.content = ""
  · simp [h1]
  · by_cases h2 : c.confidence_score ≤ (7 : ℚ)/10
    · have h2b : ¬((7 : ℚ)/10 < c.confidence_score) := not_lt.mpr h2
      simp [h1, h2, h2b]
    · by_cases h3 : pyLower c.verification_status = "pending"
      · simp [h1, h3]
      · have h2b : (7 : ℚ)/10 < c.confidence_score := lt_of_not_le h2
        simp [h1, h2, h2b, h3]

/-- C2 counterexample: the claim's iff fails on the code.  A candidate with
content "D", confidence 0.9 and verification_status "PENDING" satisfies the
claimed condition (score > 0.7 and status ≠ "pending", case-sensitively), yet
the code, which lowercases the status before comparing, does not persist it. -/
theorem promotion_rule_cex :
    promoteCandidates [⟨"D", (9 : ℚ)/10, "PENDING", none⟩] = []
      ∧ (7 : ℚ)/10 < (9 : ℚ)/10
      ∧ "PENDING" ≠ "pending" := by
  refine ⟨?_, by norm_num, by decide⟩
  rw [promoteCandidates_eq]
  have hD : candidateQualifies ⟨"D", (9 : ℚ)/10, "PENDING", none⟩ = false := by
    have h : pyLower "PENDING" = "pending" := by decide
    simp [candidateQualifies, h]
  simp [List.filter, hD]

/-- C2 (amended): a `qmd_candidates` entry is persisted iff its content is
non-blank after stripping whitespace, its confidence_score is strictly greater
than 0.7, and its lowercased verification_status is not "pending"; the
persisted pair carries the entry's collection (default "core_memory").  On the
claim's concrete A/B/C list, exactly the document "A" is persisted. -/
theorem promotion_rule_amended :
    (∀ cs : List Candidate, promoteCandidates cs =
        (cs.filter candidateQualifies).map
          (fun c => (c.content, pyOrStr c.collection "core_memory")))
      ∧ promoteCandidates
          [⟨"A", (9 : ℚ)/10, "confirmed", none⟩,
           ⟨"B", (1 : ℚ)/2, "confirmed", none⟩,
           ⟨"C", (19 : ℚ)/20, "pending", none⟩] = [("A", "core_memory")]
      ∧ (∀ c : Candidate, candidateQualifies c = true ↔
          (pyStrip c.content ≠ "" ∧ (7 : ℚ)/10 < c.confidence_score
            ∧ pyLower c.verification_status ≠ "pending")) := by
  refine ⟨promoteCandidates_eq, ?_, candidateQualifies_iff⟩
  rw [promoteCandidates_eq]
  have hA : candidateQualifies ⟨"A", (9 : ℚ)/10, "confirmed", none⟩ = true :=
    (candidateQualifies_iff _).mpr ⟨by decide, by norm_num, by decide⟩
  have hB : candidateQualifies ⟨"B", (1 : ℚ)/2, "confirmed", none⟩ = false := by
    rw [Bool.eq_false_iff]
    intro h
    exact absurd ((candidateQualifies_iff _).mp h).2.1 (by norm_num)
  have hC : candidateQualifies ⟨"C", (19 : ℚ)/20, "pending", none⟩ = false := by
    rw [Bool.eq_false_iff]
    intro h
    exact absurd ((candidateQualifies_iff _).mp h).2.2 (by decide)
  simp only [List.filter_cons, List.filter_nil, hA, hB, hC, if_true, if_false,
    Bool.false_eq_true, List.map_cons, List.map_nil]
  rfl

theorem lookup_mem {β : Type} (k : String) (v : β) (l : List (String × β))
    (h : List.lookup k l = some v) : (k, v) ∈ l := by
  induction l with
  | nil => cases h
  | cons a t ih =>
    obtain ⟨k1, v1⟩ := a
    rw [List.lookup] at h
    by_cases hk : (k == k1) = true
    · rw [hk] at h
      have hkk : k = k1 := eq_of_beq hk
      have hv : v1 = v := Option.some_injective _ h
      subst hkk; subst hv
      exact List.mem_cons_self _ _
    · rw [Bool.eq_false_iff.mpr hk] at h
      exact List.mem_cons_of_mem _ (ih h)

theorem lookup_append_of_none {β : Type} (k : String) (l1 l2 : List (String × β))
    (h : List.lookup k l1 = none) :
    List.lookup k (l1 ++ l2) = List.lookup k l2 := by
  induction l1 with
  | nil => rfl
  | cons a t ih =>
    obtain ⟨k1, v1⟩ := a
    rw [List.lookup] at h
    rw [List.cons_append, List.lookup]
    by_cases hk : (k == k1) = true
    · rw [hk] at h; cases h
    · rw [Bool.eq_false_iff.mpr hk] at h ⊢
      exact ih h

/-- After `_get_collection_id` has run, the name resolves to the returned id. -/
theorem getCollectionId_lookup (s : QMD) (c : String) :
    List.lookup c (getCollectionId s c).2.collections = some (getCollectionId s c).1 := by
  unfold getCollectionId
  cases hl : List.lookup c s.collections with
  | some i => exact hl
  | none =>
    show List.lookup c (s.collections ++ [(c, s.nextCollId)]) = some s.nextCollId
    rw [lookup_append_of_none c _ _ hl]
    simp [List.lookup]

theorem getCollectionId_of_lookup (s : QMD) (c : String) (i : Nat)
    (h : List.lookup c s.collections = some i) : getCollectionId s c = (i, s) := by
  unfold getCollectionId
  rw [h]

theorem getCollectionId_documents (s : QMD) (c : String) :
    (getCollectionId s c).2.documents = s.documents := by
  unfold getCollectionId
  cases List.lookup c s.collections with
  | none => rfl
  | some i => rfl

theorem qmdWF_getCollectionId (s : QMD) (c : String) (h : qmdWF s) :
    qmdWF (getCollectionId s c).2
      ∧ (getCollectionId s c).1 < (getCollectionId s c).2.nextCollId := by
  unfold getCollectionId
  cases hl : List.lookup c s.collections with
  | some i =>
    refine ⟨h, ?_⟩
    exact h.2 (c, i) (lookup_mem c i s.collections hl)
  | none =>
    refine ⟨⟨?_, ?_⟩, Nat.lt_succ_self _⟩
    · intro d hd
      exact Nat.lt_succ_of_lt (h.1 d hd)
    · intro p hp
      simp only [List.mem_append, List.mem_singleton] at hp
      rcases hp with hp | hp
      · exact Nat.lt_succ_of_lt (h.2 p hp)
      · subst hp; exact Nat.lt_succ_self _

theorem qmdWF_empty : qmdWF emptyQMD := by
  unfold qmdWF
  constructor
  · intro d hd
    cases hd
  · intro p hp
    cases hp

theorem qmdWF_add (s : QMD) (content collection meta : String) (h : qmdWF s) :
    qmdWF (qmdAdd s content collection meta) := by
  obtain ⟨hwf, hlt⟩ := qmdWF_getCollectionId s collection h
  unfold qmdAdd
  constructor
  · intro d hd
    simp only [List.mem_append, List.mem_singleton] at hd
    rcases hd with hd | hd
    · exact hwf.1 d hd
    · subst hd; exact hlt
  · exact hwf.2

theorem qmdWF_search (s : QMD) (q : String) (c : Option String) (limit : Nat)
    (h : qmdWF s) : qmdWF (qmdSearch s q c limit).2 := by
  cases c with
  | none => exact h
  | some name => exact (qmdWF_getCollectionId s name h).1

theorem qmdSearch_length_le (s : QMD) (q : String) (c : Option String) (limit : Nat) :
    (qmdSearch s q c limit).1.length ≤ limit := by
  cases c with
  | none =>
    simp only [qmdSearch, List.length_map]
    exact List.length_take_le _ _
  | some name =>
    simp only [qmdSearch, List.length_map]
    exact List.length_take_le _ _

theorem qmdSearch_after_add (s : QMD) (q content c meta : String) (n : Nat)
    (hmatch : strIn q content = true) :
    ∃ rest s2,
      qmdSearch (qmdAdd s content c meta) q (some c) (n + 1)
        = ((content, meta) :: rest, s2) := by
  have hcoll : (qmdAdd s content c meta).collections = (getCollectionId s c).2.collections :=
    rfl
  have hlk : List.lookup c (qmdAdd s content c meta).collections
      = some (getCollectionId s c).1 := by
    rw [hcoll]; exact getCollectionId_lookup s c
  have hgci : getCollectionId (qmdAdd s content c meta) c
      = ((getCollectionId s c).1, qmdAdd s content c meta) :=
    getCollectionId_of_lookup _ _ _ hlk
  have h1 : (getCollectionId (qmdAdd s content c meta) c).1 = (getCollectionId s c).1 := by
    rw [hgci]
  have h2 : (getCollectionId (qmdAdd s content c meta) c).2 = qmdAdd s content c meta := by
    rw [hgci]
  refine ⟨((((getCollectionId s c).2.documents.filter
      (fun d => strIn q d.content && d.collId == (getCollectionId s c).1)).reverse).take n).map
        (fun d => (d.content, d.meta)),
    qmdAdd s content c meta, ?_⟩
  simp only [qmdSearch, h1, h2]
  have hdocs : (qmdAdd s content c meta).documents
      = (getCollectionId s c).2.documents ++
        [⟨(getCollectionId s c).1, content, meta, (getCollectionId s c).2.clock⟩] := rfl
  rw [hdocs, List.filter_append, List.filter_cons]
  have hdoc : (strIn q content && (getCollectionId s c).1 == (getCollectionId s c).1) = true := by
    simp [hmatch]
  simp only [hdoc, if_true, List.filter_nil, List.reverse_append, List.reverse_cons,
    List.reverse_nil, List.nil_append, List.cons_append, List.take_succ_cons, List.map_cons]

theorem qmdSearch_fresh_collection (s : QMD) (q c : String) (limit : Nat)
    (hwf : qmdWF s) (hnone : List.lookup c s.collections = none) :
    qmdSearch s q (some c) limit
      = ([], { s with
                collections := s.collections ++ [(c, s.nextCollId)],
                nextCollId := s.nextCollId + 1 }) := by
  have hg : getCollectionId s c
      = (s.nextCollId,
         { s with
            collections := s.collections ++ [(c, s.nextCollId)],
            nextCollId := s.nextCollId + 1 }) := by
    unfold getCollectionId
    rw [hnone]
  have h1 : (getCollectionId s c).1 = s.nextCollId := by rw [hg]
  have h2 : (getCollectionId s c).2
      = { s with
            collections := s.collections ++ [(c, s.nextCollId)],
            nextCollId := s.nextCollId + 1 } := by rw [hg]
  simp only [qmdSearch, h1, h2]
  have hfilter : s.documents.filter
      (fun d => strIn q d.content && d.collId == s.nextCollId) = [] := by
    rw [List.filter_eq_nil_iff]
    intro d hd
    have hlt := hwf.1 d hd
    simp [Nat.ne_of_lt hlt]
  rw [show ({ s with
        collections := s.collections ++ [(c, s.nextCollId)],
        nextCollId := s.nextCollId + 1 } : QMD).documents = s.documents from rfl, hfilter]
  simp

/-- C9: Long-Term Store round trip.  (i) After `add(content, collection)`, a
`search(q, collection, limit)` with `limit ≥ 1` and `q` a substring of the
content returns the added document first (`ORDER BY created_at DESC` puts the
newest match first); (ii) on the concrete scenario, adding "hello world" to
collection "c1" and searching "hello" in "c1" returns it, while the same
search against collection "c2" returns nothing; (iii) search never returns
more than `limit` matches. -/
theorem qmd_roundtrip :
    (∀ (s : QMD) (q content c meta : String) (n : Nat), strIn q content = true →
        ∃ rest s2, qmdSearch (qmdAdd s content c meta) q (some c) (n + 1)
          = ((content, meta) :: rest, s2))
      ∧ (qmdSearch (qmdAdd emptyQMD "hello world" "c1" "\x7b\x7d") "hello" (some "c1") 5).1
          = [("hello world", "\x7b\x7d")]
      ∧ (qmdSearch (qmdAdd emptyQMD "hello world" "c1" "\x7b\x7d") "hello" (some "c2") 5).1
          = []
      ∧ (∀ (s : QMD) (q : String) (c : Option String) (limit : Nat),
          (qmdSearch s q c limit).1.length ≤ limit) :=
  ⟨fun s q content c meta n h => qmdSearch_after_add s q content c meta n h,
   by decide, by decide, qmdSearch_length_le⟩

/-- C10: `search` with an explicit collection argument is not read-only.
Searching a collection name absent from the collections table inserts it (with
the next AUTOINCREMENT id) as a side effect and returns no results; the
well-formedness invariant needed for the empty result holds for every store
reachable by `add`/`search` from the empty store. -/
theorem qmd_search_inserts_collection :
    (∀ (s : QMD) (q c : String) (limit : Nat),
        qmdWF s → List.lookup c s.collections = none →
        qmdSearch s q (some c) limit
          = ([], { s with
                    collections := s.collections ++ [(c, s.nextCollId)],
                    nextCollId := s.nextCollId + 1 }))
      ∧ qmdWF emptyQMD
      ∧ (∀ (s : QMD) (content c meta : String), qmdWF s → qmdWF (qmdAdd s content c meta))
      ∧ (∀ (s : QMD) (q : String) (c : Option String) (limit : Nat),
          qmdWF s → qmdWF (qmdSearch s q c limit).2) :=
  ⟨qmdSearch_fresh_collection, qmdWF_empty,
   fun s content c meta h => qmdWF_add s content c meta h,
   fun s q c limit h => qmdWF_search s q c limit h⟩

theorem callSlot_ok (s : Slot) (h : NeverRaises s.beh) :
    ∃ v, (callSlot s).1 = Except.ok v := by
  rcases h s.calls with ⟨v, hv⟩
  exact ⟨v, hv⟩

theorem callSlot_beh (s : Slot) : (callSlot s).2.beh = s.beh := rfl

theorem callSlot_role (s : Slot) : (callSlot s).2.role = s.role := rfl

theorem chatSequentialGo_ok (slots : List Slot) (h : SlotsOk slots) :
    ∃ outs slots2, chatSequentialGo slots = Except.ok (outs, slots2)
      ∧ SlotsOk slots2 ∧ slots2.length = slots.length := by
  induction slots with
  | nil => exact ⟨[], [], rfl, fun s hs => absurd hs (List.not_mem_nil s), rfl⟩
  | cons s rest ih =>
    rcases callSlot_ok s (h s (List.mem_cons_self _ _)) with ⟨v, hv⟩
    rcases ih (fun t ht => h t (List.mem_cons_of_mem _ ht)) with
      ⟨outs, rest2, hgo, hok, hlen⟩
    refine ⟨("[" ++ s.role ++ "]\n" ++ v) :: outs, (callSlot s).2 :: rest2, ?_, ?_, ?_⟩
    · have hv2 : s.beh s.calls = Except.ok v := hv
      simp only [chatSequentialGo, callSlot, hv2, hgo]
    · intro t ht
      rcases List.mem_cons.mp ht with he | ht2
      · subst he
        rw [callSlot_beh]
        exact h s (List.mem_cons_self _ _)
      · exact hok t ht2
    · simp [hlen]

theorem chatSequential_ok (slots : List Slot) (input : String) (h : SlotsOk slots) :
    ∃ out slots2, chatSequential slots input = Except.ok (out, slots2)
      ∧ SlotsOk slots2 ∧ slots2.length = slots.length := by
  rcases chatSequentialGo_ok slots h with ⟨outs, slots2, hgo, hok, hlen⟩
  exact ⟨String.intercalate "\n\n" outs, slots2, by rw [chatSequential, hgo], hok, hlen⟩

theorem runConcurrentRound_slots (slots : List Slot) (r : Nat) :
    (runConcurrentRound slots r).slots = slots.map (fun s => (callSlot s).2) := by
  induction slots with
  | nil => rfl
  | cons s rest ih =>
    rw [runConcurrentRound, List.map_cons]
    cases h : (callSlot s).1 <;> simp [h, ih]

theorem runConcurrentRound_roles (slots : List Slot) (r : Nat) :
    (runConcurrentRound slots r).slots.map (fun s => s.role)
      = slots.map (fun s => s.role) := by
  rw [runConcurrentRound_slots, List.map_map]
  rfl

theorem runConcurrentRound_ok_slots (slots : List Slot) (r : Nat) (h : SlotsOk slots) :
    SlotsOk (runConcurrentRound slots r).slots := by
  rw [runConcurrentRound_slots]
  intro t ht
  rcases List.mem_map.mp ht with ⟨s, hs, he⟩
  subst he
  rw [callSlot_beh]
  exact h s hs

theorem runConcurrentRound_length (slots : List Slot) (r : Nat) :
    (runConcurrentRound slots r).slots.length = slots.length := by
  rw [runConcurrentRound_slots, List.length_map]

/-- With no agent raising, every slot contributes exactly one Whiteboard
write, keyed by its role and the round number, in slot order. -/
theorem runConcurrentRound_keys (slots : List Slot) (r : Nat) (h : SlotsOk slots) :
    (runConcurrentRound slots r).writes.map Prod.fst
      = slots.map (fun s => concurrentKey s.role r) := by
  induction slots with
  | nil => rfl
  | cons s rest ih =>
    rcases callSlot_ok s (h s (List.mem_cons_self _ _)) with ⟨v, hv⟩
    rw [runConcurrentRound, hv, List.map_cons]
    simp only [List.map_cons]
    rw [ih (fun t ht => h t (List.mem_cons_of_mem _ ht))]

theorem runConcurrentRounds_slots_ok (slots : List Slot) (r n : Nat) (h : SlotsOk slots) :
    SlotsOk (runConcurrentRounds slots r n).1
      ∧ (runConcurrentRounds slots r n).1.length = slots.length
      ∧ (runConcurrentRounds slots r n).1.map (fun s => s.role)
          = slots.map (fun s => s.role) := by
  induction n generalizing slots r with
  | zero => exact ⟨h, rfl, rfl⟩
  | succ n ih =>
    rw [runConcurrentRounds]
    have h1 := runConcurrentRound_ok_slots slots r h
    rcases ih (runConcurrentRound slots r).slots (r+1) h1 with ⟨ha, hb, hc⟩
    refine ⟨ha, ?_, ?_⟩
    · rw [hb, runConcurrentRound_length]
    · rw [hc, runConcurrentRound_roles]

theorem map_role_key (slots : List Slot) (r : Nat) :
    slots.map (fun s => concurrentKey s.role r)
      = (slots.map (fun s => s.role)).map (fun ro => concurrentKey ro r) := by
  rw [List.map_map]
  rfl

theorem runConcurrentRounds_keys (slots : List Slot) (r n : Nat) (h : SlotsOk slots) :
    (runConcurrentRounds slots r n).2.1.map Prod.fst
      = expectedKeys (slots.map (fun s => s.role)) r n := by
  induction n generalizing slots r with
  | zero => rfl
  | succ n ih =>
    rw [runConcurrentRounds, expectedKeys]
    simp only [List.map_append]
    rw [runConcurrentRound_keys slots r h,
      ih (runConcurrentRound slots r).slots (r+1) (runConcurrentRound_ok_slots slots r h),
      runConcurrentRound_roles, map_role_key]

theorem consensusDecision_ok (slots : List Slot) (h : SlotsOk slots)
    (hne : slots ≠ []) :
    ∃ d slots2, consensusDecision slots = Except.ok (d, slots2)
      ∧ SlotsOk slots2 ∧ slots2.length = slots.length := by
  match slots, hne with
  | judge :: rest, _ =>
    have hj : NeverRaises judge.beh := h judge (List.mem_cons_self _ _)
    have hrest : ∀ t ∈ rest, NeverRaises t.beh :=
      fun t ht => h t (List.mem_cons_of_mem _ ht)
    rcases hj judge.calls with ⟨v, hv⟩
    rcases hj (judge.calls + 1) with ⟨v2, hv2⟩
    have hv2b : (advanceSlot judge).beh (advanceSlot judge).calls = Except.ok v2 := hv2
    by_cases hc : strIn "insufficient info" (pyLower v) = true
    · refine ⟨v2, advanceSlot (advanceSlot judge) :: rest, ?_, ?_, by simp⟩
      · simp only [consensusDecision, callSlot, hv, hc, if_true, hv2b]
      · intro t ht
        rcases List.mem_cons.mp ht with he | ht2
        · subst he
          exact hj
        · exact hrest t ht2
    · refine ⟨v, advanceSlot judge :: rest, ?_, ?_, by simp⟩
      · simp only [consensusDecision, callSlot, hv, hc, if_false]
        simp [Bool.eq_false_iff.mpr hc]
      · intro t ht
        rcases List.mem_cons.mp ht with he | ht2
        · subst he
          exact hj
        · exact hrest t ht2

theorem chatConcurrent_ok (slots : List Slot) (input : String) (h : SlotsOk slots)
    (hne : slots ≠ []) :
    ∃ o : ArchOut, chatConcurrent slots input = Except.ok o
      ∧ SlotsOk o.slots ∧ o.slots.length = slots.length := by
  rcases runConcurrentRounds_slots_ok slots 0 (roundsFor input) h with ⟨h1, h2, _⟩
  have hne2 : (runConcurrentRounds slots 0 (roundsFor input)).1 ≠ [] := by
    intro hnil
    rw [hnil] at h2
    exact hne (List.length_eq_zero.mp h2.symm)
  rcases consensusDecision_ok _ h1 hne2 with ⟨d, slots2, hcd, hok2, hlen2⟩
  refine ⟨⟨d, slots2, (runConcurrentRounds slots 0 (roundsFor input)).2.1⟩, ?_, hok2, ?_⟩
  · simp only [chatConcurrent, hcd]
  · rw [hlen2, h2]

theorem mixtureRound_slots (slots : List Slot) :
    (mixtureRound slots).1 = slots.map (fun s => (callSlot s).2) := by
  induction slots with
  | nil => rfl
  | cons s rest ih =>
    rw [mixtureRound, List.map_cons]
    cases h : (callSlot s).1 <;> simp [h, ih]

theorem mixtureRound_ok_slots (slots : List Slot) (h : SlotsOk slots) :
    SlotsOk (mixtureRound slots).1 := by
  rw [mixtureRound_slots]
  intro t ht
  rcases List.mem_map.mp ht with ⟨s, hs, he⟩
  subst he
  exact h s hs

theorem mixtureRound_length (slots : List Slot) :
    (mixtureRound slots).1.length = slots.length := by
  rw [mixtureRound_slots, List.length_map]

theorem mixtureLoop_ok (n : Nat) (slots : List Slot) (hist : List String)
    (h : SlotsOk slots) (hne : slots ≠ []) :
    ∃ slots2 hist2, mixtureLoop slots hist n = Except.ok (slots2, hist2)
      ∧ SlotsOk slots2 ∧ slots2.length = slots.length := by
  induction n generalizing slots hist with
  | zero => exact ⟨slots, hist, rfl, h, rfl⟩
  | succ n ih =>
    have hok := mixtureRound_ok_slots slots h
    have hlen := mixtureRound_length slots
    by_cases hn : n = 0
    · subst hn
      refine ⟨(mixtureRound slots).1, hist ++ (mixtureRound slots).2.2, ?_, hok, hlen⟩
      simp [mixtureLoop]
    · have hne2 : (mixtureRound slots).1 ≠ [] := by
        intro hnil
        rw [hnil] at hlen
        exact hne (List.length_eq_zero.mp hlen.symm)
      rcases hmr : (mixtureRound slots).1 with _ | ⟨j, rest⟩
      · exact absurd hmr hne2
      · have hjok : NeverRaises j.beh := by
          refine hok j ?_
          rw [hmr]
          exact List.mem_cons_self _ _
        rcases hjok j.calls with ⟨v, hv⟩
        have hrest : SlotsOk (advanceSlot j :: rest) := by
          intro t ht
          rcases List.mem_cons.mp ht with he | ht2
          · subst he; exact hjok
          · refine hok t ?_
            rw [hmr]
            exact List.mem_cons_of_mem _ ht2
        have hlen3 : (advanceSlot j :: rest).length = slots.length := by
          have : (j :: rest).length = slots.length := by rw [← hmr]; exact hlen
          simpa using this
        by_cases hyes : (strIn "YES" (pyUpper v) && decide (v.data.length < 20)) = true
        · refine ⟨advanceSlot j :: rest, hist ++ (mixtureRound slots).2.2, ?_, hrest, hlen3⟩
          simp only [mixtureLoop, hmr, hn, if_false, callSlot, hv, hyes, if_true]
        · rcases ih (advanceSlot j :: rest) (hist ++ (mixtureRound slots).2.2) hrest
            (by intro hx; cases hx) with ⟨slots2, hist2, hml, hok2, hlen2⟩
          refine ⟨slots2, hist2, ?_, hok2, by rw [hlen2, hlen3]⟩
          simp only [mixtureLoop, hmr, hn, if_false, callSlot, hv,
            Bool.eq_false_iff.mpr hyes, hml]
          simp

theorem chatMixture_ok (slots : List Slot) (input : String) (h : SlotsOk slots)
    (hne : slots ≠ []) :
    ∃ o : ArchOut, chatMixture slots input = Except.ok o
      ∧ SlotsOk o.slots ∧ o.slots.length = slots.length := by
  rcases hsl : slots with _ | ⟨planner, rest⟩
  · exact absurd hsl hne
  subst hsl
  have hpok : NeverRaises planner.beh := h planner (List.mem_cons_self _ _)
  rcases hpok planner.calls with ⟨v, hv⟩
  have hok1 : SlotsOk (advanceSlot planner :: rest) := by
    intro t ht
    rcases List.mem_cons.mp ht with he | ht2
    · subst he; exact hpok
    · exact h t (List.mem_cons_of_mem _ ht2)
  rcases mixtureLoop_ok ((findRoundsMatch v).getD 5) (advanceSlot planner :: rest) []
      hok1 (by intro hx; cases hx) with ⟨slots2, hist2, hml, hok2, hlen2⟩
  have hne2 : slots2 ≠ [] := by
    intro hnil
    rw [hnil] at hlen2
    cases hlen2
  rcases hs2 : slots2 with _ | ⟨j, rest2⟩
  · exact absurd hs2 hne2
  subst hs2
  have hjok : NeverRaises j.beh := hok2 j (List.mem_cons_self _ _)
  rcases hjok j.calls with ⟨v2, hv2⟩
  have hok3 : SlotsOk (advanceSlot j :: rest2) := by
    intro t ht
    rcases List.mem_cons.mp ht with he | ht2
    · subst he; exact hjok
    · exact hok2 t (List.mem_cons_of_mem _ ht2)
  rcases consensusDecision_ok (advanceSlot j :: rest2) hok3 (by intro hx; cases hx) with
    ⟨d, slots3, hcd, hok4, hlen4⟩
  refine ⟨⟨d, slots3, []⟩, ?_, hok4, ?_⟩
  · simp only [chatMixture, callSlot, hv, hml, hv2, hcd]
  · rw [hlen4]
    simpa using hlen2

theorem groupChatRound_ok (slots : List Slot) (r : Nat) (h : SlotsOk slots) :
    ∃ slots2 outs, groupChatRound slots r = Except.ok (slots2, outs)
      ∧ SlotsOk slots2 ∧ slots2.length = slots.length := by
  induction slots with
  | nil => exact ⟨[], [], rfl, fun s hs => absurd hs (List.not_mem_nil s), rfl⟩
  | cons s rest ih =>
    have hsok : NeverRaises s.beh := h s (List.mem_cons_self _ _)
    rcases hsok s.calls with ⟨v, hv⟩
    rcases ih (fun t ht => h t (List.mem_cons_of_mem _ ht)) with
      ⟨rest2, outs, hgo, hok, hlen⟩
    refine ⟨advanceSlot s :: rest2,
      ("[round " ++ toString (r+1) ++ " - " ++ s.role ++ "]\n" ++ v) :: outs, ?_, ?_, ?_⟩
    · simp only [groupChatRound, callSlot, hv, hgo]
    · intro t ht
      rcases List.mem_cons.mp ht with he | ht2
      · subst he; exact hsok
      · exact hok t ht2
    · simp [hlen]

theorem groupChatRounds_ok (n : Nat) (slots : List Slot) (r : Nat) (h : SlotsOk slots) :
    ∃ slots2 outs, groupChatRounds slots r n = Except.ok (slots2, outs)
      ∧ SlotsOk slots2 ∧ slots2.length = slots.length := by
  induction n generalizing slots r with
  | zero => exact ⟨slots, [], rfl, h, rfl⟩
  | succ n ih =>
    rcases groupChatRound_ok slots r h with ⟨slots2, outs, hgo, hok, hlen⟩
    rcases ih slots2 (r+1) hok with ⟨slots3, outs2, hgo2, hok2, hlen2⟩
    refine ⟨slots3, outs ++ outs2, ?_, hok2, by rw [hlen2, hlen]⟩
    simp only [groupChatRounds, hgo, hgo2]

theorem chatGroupChat_ok (slots : List Slot) (input : String) (h : SlotsOk slots)
    (hne : slots ≠ []) :
    ∃ o : ArchOut, chatGroupChat slots input = Except.ok o
      ∧ SlotsOk o.slots ∧ o.slots.length = slots.length := by
  rcases groupChatRounds_ok 3 slots 0 h with ⟨slots2, outs, hgo, hok, hlen⟩
  have hne2 : slots2 ≠ [] := by
    intro hnil
    rw [hnil] at hlen
    exact hne (List.length_eq_zero.mp hlen.symm)
  rcases consensusDecision_ok slots2 hok hne2 with ⟨d, slots3, hcd, hok2, hlen2⟩
  refine ⟨⟨d, slots3, []⟩, ?_, hok2, by rw [hlen2, hlen]⟩
  simp only [chatGroupChat, hgo, hcd]

theorem hierarchicalWorkers_ok (slots : List Slot) (h : SlotsOk slots) :
    ∃ slots2 outs, hierarchicalWorkers slots = Except.ok (slots2, outs)
      ∧ SlotsOk slots2 ∧ slots2.length = slots.length := by
  induction slots with
  | nil => exact ⟨[], [], rfl, fun s hs => absurd hs (List.not_mem_nil s), rfl⟩
  | cons s rest ih =>
    have hsok : NeverRaises s.beh := h s (List.mem_cons_self _ _)
    rcases hsok s.calls with ⟨v, hv⟩
    rcases ih (fun t ht => h t (List.mem_cons_of_mem _ ht)) with
      ⟨rest2, outs, hgo, hok, hlen⟩
    refine ⟨advanceSlot s :: rest2, ("[worker-" ++ s.role ++ "]\n" ++ v) :: outs, ?_, ?_, ?_⟩
    · simp only [hierarchicalWorkers, callSlot, hv, hgo]
    · intro t ht
      rcases List.mem_cons.mp ht with he | ht2
      · subst he; exact hsok
      · exact hok t ht2
    · simp [hlen]

theorem chatHierarchical_ok (slots : List Slot) (input : String) (h : SlotsOk slots)
    (hne : slots ≠ []) :
    ∃ o : ArchOut, chatHierarchical slots input = Except.ok o
      ∧ SlotsOk o.slots ∧ o.slots.length = slots.length := by
  rcases hsl : slots with _ | ⟨director, workers⟩
  · exact absurd hsl hne
  subst hsl
  have hdok : NeverRaises director.beh := h director (List.mem_cons_self _ _)
  rcases hdok director.calls with ⟨plan, hp⟩
  rcases hierarchicalWorkers_ok workers (fun t ht => h t (List.mem_cons_of_mem _ ht)) with
    ⟨workers2, wouts, hw, hokw, hlenw⟩
  rcases hdok (director.calls + 1) with ⟨summary, hs⟩
  have hs2 : (advanceSlot director).beh (advanceSlot director).calls = Except.ok summary := hs
  refine ⟨⟨String.intercalate "\n\n"
      ((("[director-plan]\n" ++ plan) :: wouts) ++ ["[director-summary]\n" ++ summary]),
    advanceSlot (advanceSlot director) :: workers2, []⟩, ?_, ?_, by simp [hlenw]⟩
  · simp only [chatHierarchical, callSlot, hp, hw, hs2]
  · intro t ht
    rcases List.mem_cons.mp ht with he | ht2
    · subst he; exact hdok
    · exact hokw t ht2

theorem callPool_ok (pool : List Slot) (i : Nat) (h : SlotsOk pool)
    (hi : i < pool.length) :
    ∃ v pool2, callPool pool i = (Except.ok v, pool2)
      ∧ SlotsOk pool2 ∧ pool2.length = pool.length := by
  cases hg : pool.get? i with
  | none =>
    rw [List.get?_eq_none] at hg
    omega
  | some s =>
    have hmem : s ∈ pool := List.get?_mem hg
    have hsok : NeverRaises s.beh := h s hmem
    rcases hsok s.calls with ⟨v, hv⟩
    refine ⟨v, pool.set i (callSlot s).2, ?_, ?_, List.length_set pool i _⟩
    · simp only [callPool, hg, callSlot, hv]
    · intro t ht
      rcases List.mem_or_eq_of_mem_set ht with ht2 | he
      · exact h t ht2
      · subst he; exact hsok

theorem smRunGo_ok (states : List SMState) (fuel : Nat) :
    ∀ (cur : String) (hist visited : List String) (pool : List Slot),
      SlotsOk pool → (∀ st ∈ states, st.agentIdx < pool.length) →
      ∃ o, smRunGo states fuel cur hist visited pool = Except.ok o
        ∧ SlotsOk o.pool ∧ o.pool.length = pool.length := by
  induction fuel with
  | zero =>
    intro cur hist visited pool h _
    exact ⟨⟨String.intercalate "\n\n" hist, hist, visited, pool⟩, rfl, h, rfl⟩
  | succ fuel ih =>
    intro cur hist visited pool h hidx
    cases hlk : smLookup states cur with
    | none =>
      refine ⟨⟨"Error: State " ++ cur ++ " not found.", hist, visited ++ [cur], pool⟩,
        ?_, h, rfl⟩
      simp only [smRunGo, hlk]
    | some st =>
      have hstm : st ∈ states := by
        have := List.find?_some hlk
        exact List.mem_of_find?_eq_some hlk
      rcases callPool_ok pool st.agentIdx h (hidx st hstm) with ⟨v, pool2, hcp, hok2, hlen2⟩
      by_cases he : st.transitions = []
      · refine ⟨⟨String.intercalate "\n\n" (hist ++ ["[" ++ st.name ++ "] " ++ v]),
          hist ++ ["[" ++ st.name ++ "] " ++ v], visited ++ [cur], pool2⟩, ?_, hok2, hlen2⟩
        simp only [smRunGo, hlk, hcp]
        rw [if_pos he]
      · by_cases hd : st.transitions.length = 1
            ∧ (List.lookup "default" st.transitions).isSome = true
        · rcases ih ((List.lookup "default" st.transitions).getD "")
              (hist ++ ["[" ++ st.name ++ "] " ++ v]) (visited ++ [cur]) pool2 hok2
              (fun st2 hst2 => hlen2 ▸ hidx st2 hst2) with ⟨o, hgo, hoko, hleno⟩
          refine ⟨o, ?_, hoko, by rw [hleno, hlen2]⟩
          simp only [smRunGo, hlk, hcp]
          rw [if_neg he, if_pos hd]
          exact hgo
        · rcases callPool_ok pool2 st.agentIdx hok2 (hlen2 ▸ hidx st hstm) with
            ⟨v2, pool3, hcp2, hok3, hlen3⟩
          have hidx3 : ∀ st2 ∈ states, st2.agentIdx < pool3.length :=
            fun st2 hst2 => hlen3 ▸ hlen2 ▸ hidx st2 hst2
          cases hr : List.lookup (pyStrip v2) st.transitions with
          | some nxt =>
            rcases ih nxt (hist ++ ["[" ++ st.name ++ "] " ++ v]) (visited ++ [cur])
                pool3 hok3 hidx3 with ⟨o, hgo, hoko, hleno⟩
            refine ⟨o, ?_, hoko, by rw [hleno, hlen3, hlen2]⟩
            simp only [smRunGo, hlk, hcp]
            rw [if_neg he, if_neg hd]
            simp only [hcp2, hr, hgo]
          | none =>
            cases hdl : List.lookup "default" st.transitions with
            | some nxt =>
              rcases ih nxt (hist ++ ["[" ++ st.name ++ "] " ++ v]) (visited ++ [cur])
                  pool3 hok3 hidx3 with ⟨o, hgo, hoko, hleno⟩
              refine ⟨o, ?_, hoko, by rw [hleno, hlen3, hlen2]⟩
              simp only [smRunGo, hlk, hcp]
              rw [if_neg he, if_neg hd]
              simp only [hcp2, hr, hdl, hgo]
            | none =>
              refine ⟨⟨String.intercalate "\n\n" (hist ++ ["[" ++ st.name ++ "] " ++ v]),
                hist ++ ["[" ++ st.name ++ "] " ++ v], visited ++ [cur], pool3⟩, ?_, hok3,
                by rw [hlen3, hlen2]⟩
              simp only [smRunGo, hlk, hcp]
              rw [if_neg he, if_neg hd]
              simp only [hcp2, hr, hdl]

theorem chatStateMachine_ok (slots : List Slot) (input : String) (h : SlotsOk slots)
    (hlen : 3 ≤ slots.length) :
    ∃ o : ArchOut, chatStateMachine slots input = Except.ok o
      ∧ SlotsOk o.slots ∧ o.slots.length = slots.length := by
  rcases hsl : slots with _ | ⟨s0, tl1⟩
  · subst hsl; simp at hlen
  rcases htl1 : tl1 with _ | ⟨s1, tl2⟩
  · subst hsl htl1; simp at hlen
  rcases htl2 : tl2 with _ | ⟨s2, rest⟩
  · subst hsl htl1 htl2; simp at hlen
  subst hsl htl1 htl2
  have hpool : SlotsOk [s1, s2] := by
    intro t ht
    rcases List.mem_cons.mp ht with he | ht2
    · rw [he]
      exact h s1 (List.mem_cons_of_mem _ (List.mem_cons_self _ _))
    · rcases List.mem_cons.mp ht2 with he | ht3
      · rw [he]
        exact h s2 (List.mem_cons_of_mem _ (List.mem_cons_of_mem _ (List.mem_cons_self _ _)))
      · cases ht3
  have hidx : ∀ st ∈ smDemoStates, st.agentIdx < ([s1, s2] : List Slot).length := by
    intro st hst
    rcases List.mem_cons.mp hst with he | hst2
    · subst he; exact Nat.zero_lt_succ 1
    · rcases List.mem_cons.mp hst2 with he | hst3
      · subst he; exact Nat.lt_succ_self 1
      · cases hst3
  rcases smRunGo_ok smDemoStates 10 "coding" [] [] [s1, s2] hpool hidx with
    ⟨o, hrun, hoko, hleno⟩
  rcases hpl : o.pool with _ | ⟨t1, ptl⟩
  · rw [hpl] at hleno; cases hleno
  rcases hptl : ptl with _ | ⟨t2, ptl2⟩
  · rw [hpl, hptl] at hleno; cases hleno
  rcases hptl2 : ptl2 with _ | ⟨t3, _⟩
  · subst hptl hptl2
    refine ⟨⟨o.output, s0 :: t1 :: t2 :: rest, []⟩, ?_, ?_, by simp⟩
    · simp only [chatStateMachine]
      rw [show smRun smDemoStates "coding" [s1, s2] 10
          = smRunGo smDemoStates 10 "coding" [] [] [s1, s2] from rfl, hrun]
      simp [hpl]
    · intro t ht
      rcases List.mem_cons.mp ht with he | ht2
      · rw [he]; exact h s0 (List.mem_cons_self _ _)
      · rcases List.mem_cons.mp ht2 with he | ht3
        · rw [he]
          refine hoko t1 ?_
          rw [hpl]; exact List.mem_cons_self _ _
        · rcases List.mem_cons.mp ht3 with he | ht4
          · rw [he]
            refine hoko t2 ?_
            rw [hpl]; exact List.mem_cons_of_mem _ (List.mem_cons_self _ _)
          · exact h t (List.mem_cons_of_mem _ (List.mem_cons_of_mem _
              (List.mem_cons_of_mem _ ht4)))
  · subst hptl
    rw [hpl, hptl2] at hleno
    simp at hleno

theorem seqToArch_ok (r : Except String (String × List Slot)) (out : String)
    (slots2 : List Slot) (h : r = Except.ok (out, slots2)) :
    seqToArch r = Except.ok ⟨out, slots2, []⟩ := by
  rw [h]
  rfl

theorem chatSwarmRouter_ok (slots : List Slot) (input : String) (h : SlotsOk slots)
    (hne : slots ≠ []) :
    ∃ o : ArchOut, chatSwarmRouter slots input = Except.ok o
      ∧ SlotsOk o.slots ∧ o.slots.length = slots.length := by
  rw [chatSwarmRouter]
  by_cases h1 : (strIn "并行" input || strIn "many" (pyLower input)) = true
  · rw [if_pos h1]
    exact chatConcurrent_ok slots input h hne
  · rw [if_neg h1]
    by_cases h2 : (strIn "计划" input || strIn "roadmap" (pyLower input)) = true
    · rw [if_pos h2]
      exact chatHierarchical_ok slots input h hne
    · rw [if_neg h2]
      rcases chatSequential_ok slots input h with ⟨out, slots2, hs, hok2, hlen2⟩
      exact ⟨⟨out, slots2, []⟩, seqToArch_ok _ out slots2 hs, hok2, hlen2⟩

theorem archPhaseNA_ok (arch : String) (slots : List Slot) (input : String)
    (h : SlotsOk slots) (hne : slots ≠ [])
    (hsm : arch = "state_machine" → 3 ≤ slots.length) :
    ∃ o : ArchOut, archPhaseNA arch slots input = Except.ok o
      ∧ SlotsOk o.slots ∧ o.slots.length = slots.length := by
  rw [archPhaseNA]
  by_cases h1 : arch = "sequential"
  · rw [if_pos h1]
    rcases chatSequential_ok slots input h with ⟨out, slots2, hs, hok2, hlen2⟩
    exact ⟨⟨out, slots2, []⟩, seqToArch_ok _ out slots2 hs, hok2, hlen2⟩
  rw [if_neg h1]
  by_cases h2 : arch = "concurrent"
  · rw [if_pos h2]
    exact chatConcurrent_ok slots input h hne
  rw [if_neg h2]
  by_cases h3 : arch = "mixture"
  · rw [if_pos h3]
    exact chatMixture_ok slots input h hne
  rw [if_neg h3]
  by_cases h4 : arch = "group_chat"
  · rw [if_pos h4]
    exact chatGroupChat_ok slots input h hne
  rw [if_neg h4]
  by_cases h5 : arch = "hierarchical"
  · rw [if_pos h5]
    exact chatHierarchical_ok slots input h hne
  rw [if_neg h5]
  by_cases h6 : arch = "swarm_router"
  · rw [if_pos h6]
    exact chatSwarmRouter_ok slots input h hne
  rw [if_neg h6]
  by_cases h7 : arch = "long_horizon"
  · rw [if_pos h7]
    rcases chatSequential_ok slots input h with ⟨out, slots2, hs, hok2, hlen2⟩
    exact ⟨⟨out, slots2, []⟩, seqToArch_ok _ out slots2 hs, hok2, hlen2⟩
  rw [if_neg h7]
  by_cases h8 : arch = "state_machine"
  · rw [if_pos h8]
    exact chatStateMachine_ok slots input h (hsm h8)
  rw [if_neg h8]
  exact chatConcurrent_ok slots input h hne

theorem chatInterpret_ok (slots : List Slot) (h : SlotsOk slots) (hne : slots ≠ []) :
    ∃ master slots2, chatInterpret slots = Except.ok (master, slots2)
      ∧ SlotsOk slots2 ∧ slots2.length = slots.length := by
  rcases hsl : slots with _ | ⟨m, rest⟩
  · exact absurd hsl hne
  subst hsl
  have hmok : NeverRaises m.beh := h m (List.mem_cons_self _ _)
  rcases hmok m.calls with ⟨v, hv⟩
  refine ⟨v, advanceSlot m :: rest, ?_, ?_, by simp⟩
  · simp only [chatInterpret, callSlot, hv]
  · intro t ht
    rcases List.mem_cons.mp ht with he | ht2
    · subst he; exact hmok
    · exact h t (List.mem_cons_of_mem _ ht2)

theorem chatFinal_ne (a b : String) : chatFinal a b ≠ "" := by
  unfold chatFinal
  by_cases hb : pyStrip b = ""
  · rw [if_pos hb]
    by_cases ha : pyStrip a = ""
    · rw [if_pos ha]
      decide
    · rw [if_neg ha]
      intro hx
      subst hx
      exact ha rfl
  · rw [if_neg hb]
    intro hx
    subst hx
    exact hb rfl

theorem chatPipelineNA_ok (arch : String) (slots : List Slot) (input : String)
    (h : SlotsOk slots) (hne : slots ≠ [])
    (hsm : arch = "state_machine" → 3 ≤ slots.length) :
    ∃ out slots2 ws, chatPipelineNA arch slots input = Except.ok (out, slots2, ws)
      ∧ out ≠ "" ∧ SlotsOk slots2 ∧ slots2.length = slots.length := by
  rcases archPhaseNA_ok arch slots input h hne hsm with ⟨o, hp, hoko, hleno⟩
  have hne2 : o.slots ≠ [] := by
    intro hnil
    rw [hnil] at hleno
    exact hne (List.length_eq_zero.mp hleno.symm)
  rcases chatInterpret_ok o.slots hoko hne2 with ⟨master, slots2, hi, hok2, hlen2⟩
  refine ⟨chatFinal o.result master, slots2, o.wbWrites, ?_, chatFinal_ne _ _, hok2,
    by rw [hlen2, hleno]⟩
  simp only [chatPipelineNA, hp, hi]

theorem splitChar_ne_nil (c : Char) (l : List Char) : splitChar c l ≠ [] := by
  cases l with
  | nil => intro h; cases h
  | cons x xs =>
    rw [splitChar]
    by_cases hx : x = c
    · rw [if_pos hx]
      intro h; cases h
    · rw [if_neg hx]
      cases splitChar c xs with
      | nil => intro h; cases h
      | cons a t => intro h; cases h

theorem parseRolesResp_ne_nil (resp : String) (roles : List String)
    (h : parseRolesResp resp = some roles) : roles ≠ [] := by
  unfold parseRolesResp at h
  rcases Option.bind_eq_some.mp h with ⟨rest, _, hrest⟩
  rcases Option.map_eq_some'.mp hrest with ⟨grp, _, hroles⟩
  rw [← hroles]
  intro hx
  exact splitChar_ne_nil ',' grp (List.map_eq_nil_iff.mp hx)

theorem resizeSwarm_ok (supply : Nat → AgentBeh) (slots : List Slot) (t : Nat)
    (h : SlotsOk slots) (hsup : ∀ i, NeverRaises (supply i)) :
    SlotsOk (resizeSwarm supply slots t)
      ∧ (resizeSwarm supply slots t).length = t := by
  unfold resizeSwarm
  by_cases hl : slots.length < t
  · rw [if_pos hl]
    constructor
    · intro s hs
      rcases List.mem_append.mp hs with hs1 | hs2
      · exact h s hs1
      · rcases List.mem_map.mp hs2 with ⟨j, _, he⟩
        subst he
        exact hsup _
    · simp
      omega
  · rw [if_neg hl]
    constructor
    · intro s hs
      exact h s (List.take_subset t slots hs)
    · rw [List.length_take]
      omega

theorem assignRoles_ok (slots : List Slot) (roles : List String) (h : SlotsOk slots) :
    SlotsOk (assignRoles slots roles)
      ∧ (assignRoles slots roles).length = slots.length := by
  induction slots generalizing roles with
  | nil =>
    constructor
    · intro s hs
      rw [show assignRoles [] roles = [] from by cases roles <;> rfl] at hs
      cases hs
    · cases roles <;> rfl
  | cons s rest ih =>
    have hsok : NeverRaises s.beh := h s (List.mem_cons_self _ _)
    have hrest : SlotsOk rest := fun t ht => h t (List.mem_cons_of_mem _ ht)
    cases roles with
    | nil =>
      rcases ih [] hrest with ⟨ha, hb⟩
      constructor
      · intro t ht
        rcases List.mem_cons.mp ht with he | ht2
        · rw [he]; exact hsok
        · exact ha t ht2
      · simp [assignRoles, hb]
    | cons ro more =>
      rcases ih more hrest with ⟨ha, hb⟩
      constructor
      · intro t ht
        rcases List.mem_cons.mp ht with he | ht2
        · rw [he]; exact hsok
        · exact ha t ht2
      · simp [assignRoles, hb]

theorem reassignRoles_ok (supply : Nat → AgentBeh) (slots : List Slot)
    (roles : List String) (h : SlotsOk slots) (hsup : ∀ i, NeverRaises (supply i))
    (hne : roles ≠ []) :
    SlotsOk (reassignRoles supply slots roles)
      ∧ (reassignRoles supply slots roles).length ≠ 0 := by
  rcases resizeSwarm_ok supply slots (min roles.length 10) h hsup with ⟨ha, hb⟩
  rcases assignRoles_ok (resizeSwarm supply slots (min roles.length 10)) roles ha with
    ⟨hc, hd⟩
  refine ⟨hc, ?_⟩
  rw [show reassignRoles supply slots roles
      = assignRoles (resizeSwarm supply slots (min roles.length 10)) roles from rfl, hd, hb]
  have : roles.length ≠ 0 := fun hx => hne (List.length_eq_zero.mp hx)
  omega

theorem chatAuto_ok (supply : Nat → AgentBeh) (slots : List Slot) (input : String)
    (h : SlotsOk slots) (hsup : ∀ i, NeverRaises (supply i)) (hne : slots ≠ []) :
    ∃ o : ArchOut, chatAuto supply slots input = Except.ok o
      ∧ SlotsOk o.slots ∧ o.slots ≠ [] := by
  rcases hsl : slots with _ | ⟨planner, rest⟩
  · exact absurd hsl hne
  subst hsl
  have hpok : NeverRaises planner.beh := h planner (List.mem_cons_self _ _)
  rcases hpok planner.calls with ⟨v, hv⟩
  rcases hpok (planner.calls + 1) with ⟨v2, hv2⟩
  have hv2b : (advanceSlot planner).beh (advanceSlot planner).calls = Except.ok v2 := hv2
  have hbase : SlotsOk (advanceSlot (advanceSlot planner) :: rest) := by
    intro t ht
    rcases List.mem_cons.mp ht with he | ht2
    · rw [he]; exact hpok
    · exact h t (List.mem_cons_of_mem _ ht2)
  have hbne : (advanceSlot (advanceSlot planner) :: rest : List Slot) ≠ [] := by
    intro hx; cases hx
  have tail : ∀ (archL : String) (slots2 : List Slot), archL ≠ "state_machine" →
      SlotsOk slots2 → slots2 ≠ [] →
      ∃ out slots3 ws, chatPipelineNA archL slots2 input = Except.ok (out, slots3, ws)
        ∧ SlotsOk slots3 ∧ slots3 ≠ [] := by
    intro archL slots2 hnsm hok2 hne2
    rcases chatPipelineNA_ok archL slots2 input hok2 hne2 (fun hx => absurd hx hnsm) with
      ⟨out, slots3, ws, hp, _, hok3, hlen3⟩
    refine ⟨out, slots3, ws, hp, hok3, ?_⟩
    intro hx
    rw [hx] at hlen3
    exact hne2 (List.length_eq_zero.mp hlen3.symm)
  cases hp : parseRolesResp v2 with
  | none =>
    by_cases c1 : strIn "mixture" (pyLower (pyStrip v)) = true
    · rcases tail "mixture" _ (by decide) hbase hbne with ⟨out, slots3, ws, hpipe, hok3, hne3⟩
      refine ⟨⟨out, slots3, ws⟩, ?_, hok3, hne3⟩
      simp only [chatAuto, callSlot, hv, hv2b, hp]
      rw [if_pos c1, hpipe]
    · by_cases c2 : strIn "group" (pyLower (pyStrip v)) = true
      · rcases tail "group_chat" _ (by decide) hbase hbne with
          ⟨out, slots3, ws, hpipe, hok3, hne3⟩
        refine ⟨⟨out, slots3, ws⟩, ?_, hok3, hne3⟩
        simp only [chatAuto, callSlot, hv, hv2b, hp]
        rw [if_neg c1, if_pos c2, hpipe]
      · by_cases c3 : strIn "hierarchical" (pyLower (pyStrip v)) = true
        · rcases tail "hierarchical" _ (by decide) hbase hbne with
            ⟨out, slots3, ws, hpipe, hok3, hne3⟩
          refine ⟨⟨out, slots3, ws⟩, ?_, hok3, hne3⟩
          simp only [chatAuto, callSlot, hv, hv2b, hp]
          rw [if_neg c1, if_neg c2, if_pos c3, hpipe]
        · rcases tail "concurrent" _ (by decide) hbase hbne with
            ⟨out, slots3, ws, hpipe, hok3, hne3⟩
          refine ⟨⟨out, slots3, ws⟩, ?_, hok3, hne3⟩
          simp only [chatAuto, callSlot, hv, hv2b, hp]
          rw [if_neg c1, if_neg c2, if_neg c3, hpipe]
  | some roles =>
    rcases reassignRoles_ok supply (advanceSlot (advanceSlot planner) :: rest) roles
        hbase hsup (parseRolesResp_ne_nil v2 roles hp) with ⟨hra, hrb⟩
    have hrne : reassignRoles supply (advanceSlot (advanceSlot planner) :: rest) roles ≠ [] := by
      intro hx
      rw [hx] at hrb
      exact hrb rfl
    by_cases c1 : strIn "mixture" (pyLower (pyStrip v)) = true
    · rcases tail "mixture" _ (by decide) hra hrne with ⟨out, slots3, ws, hpipe, hok3, hne3⟩
      refine ⟨⟨out, slots3, ws⟩, ?_, hok3, hne3⟩
      simp only [chatAuto, callSlot, hv, hv2b, hp]
      rw [if_pos c1, hpipe]
    · by_cases c2 : strIn "group" (pyLower (pyStrip v)) = true
      · rcases tail "group_chat" _ (by decide) hra hrne with
          ⟨out, slots3, ws, hpipe, hok3, hne3⟩
        refine ⟨⟨out, slots3, ws⟩, ?_, hok3, hne3⟩
        simp only [chatAuto, callSlot, hv, hv2b, hp]
        rw [if_neg c1, if_pos c2, hpipe]
      · by_cases c3 : strIn "hierarchical" (pyLower (pyStrip v)) = true
        · rcases tail "hierarchical" _ (by decide) hra hrne with
            ⟨out, slots3, ws, hpipe, hok3, hne3⟩
          refine ⟨⟨out, slots3, ws⟩, ?_, hok3, hne3⟩
          simp only [chatAuto, callSlot, hv, hv2b, hp]
          rw [if_neg c1, if_neg c2, if_pos c3, hpipe]
        · rcases tail "concurrent" _ (by decide) hra hrne with
            ⟨out, slots3, ws, hpipe, hok3, hne3⟩
          refine ⟨⟨out, slots3, ws⟩, ?_, hok3, hne3⟩
          simp only [chatAuto, callSlot, hv, hv2b, hp]
          rw [if_neg c1, if_neg c2, if_neg c3, hpipe]

theorem chatPipeline_ok (supply : Nat → AgentBeh) (arch : String) (slots : List Slot)
    (input : String) (h : SlotsOk slots) (hsup : ∀ i, NeverRaises (supply i))
    (hlen : 3 ≤ slots.length) :
    ∃ out slots2 ws, chatPipeline supply arch slots input = Except.ok (out, slots2, ws)
      ∧ out ≠ "" := by
  have hne : slots ≠ [] := by
    intro hx
    rw [hx] at hlen
    simp at hlen
  rw [chatPipeline]
  by_cases ha : arch = "auto"
  · rw [if_pos ha]
    rcases chatAuto_ok supply slots input h hsup hne with ⟨o, hca, hoko, hneo⟩
    rcases chatInterpret_ok o.slots hoko hneo with ⟨master, slots2, hi, _, _⟩
    refine ⟨chatFinal o.result master, slots2, o.wbWrites, ?_, chatFinal_ne _ _⟩
    simp only [hca, hi]
  · rw [if_neg ha]
    rcases chatPipelineNA_ok arch slots input h hne (fun _ => hlen) with
      ⟨out, slots2, ws, hp, hno, _, _⟩
    exact ⟨out, slots2, ws, hp, hno⟩

theorem okBeh_never (s : String) : NeverRaises (okBeh s) := fun _ => ⟨s, rfl⟩

theorem defaultSlots_ok (b : AgentBeh) (h : NeverRaises b) : SlotsOk (defaultSlots b) := by
  intro s hs
  rcases List.mem_map.mp hs with ⟨r, _, he⟩
  rw [← he]
  exact h

/-- C1: the claim as stated fails.  With a collaborator whose every
`agent.step` raises, `chat()` on the default session (eight default roles,
"concurrent" architecture) propagates the exception: the per-agent catches of
the concurrent round do not cover the consensus-synthesis call
(`_consensus_decision`'s `judge.step`), so the exception escapes `chat()`
instead of being turned into the non-empty fallback string. -/
theorem chat_contract_cex :
    chatPipeline (fun _ => alwaysRaise) "concurrent" (defaultSlots alwaysRaise) "hello"
      = Except.error "boom" := rfl

/-- C1 (amended): for every architecture name, session pool of at least three
slots, and collaborator behaviours that never raise (they may answer the empty
string on every call), `chat()` returns normally and its result string is
non-empty, via the interpretation → raw-result → literal-apology fallback
chain.  With a raising collaborator the exception can escape (see the
counterexample), because the consensus, interpretation, sequential,
group-chat, hierarchical and state-machine call sites are unguarded. -/
theorem chat_contract_amended (supply : Nat → AgentBeh) (arch input : String)
    (slots : List Slot) (h : SlotsOk slots) (hsup : ∀ i, NeverRaises (supply i))
    (hlen : 3 ≤ slots.length) :
    ∃ out slots2 ws, chatPipeline supply arch slots input = Except.ok (out, slots2, ws)
      ∧ out ≠ "" :=
  chatPipeline_ok supply arch slots input h hsup hlen

/-- C1 witness: always-empty-answer agents on the default concurrent session
still yield a normal, non-empty reply (the apology fallback). -/
theorem chat_contract_witness :
    ∃ out slots2 ws,
      chatPipeline (fun _ => okBeh "") "concurrent" (defaultSlots (okBeh "")) "hello"
        = Except.ok (out, slots2, ws) ∧ out ≠ "" :=
  chat_contract_amended (fun _ => okBeh "") "concurrent" "hello" (defaultSlots (okBeh ""))
    (defaultSlots_ok _ (okBeh_never "")) (fun _ => okBeh_never "") (by decide)

/-- C7: the claim as stated fails.  In the sequential architecture an
`agent.step` exception is not caught at the call site: the architecture phase
and the whole `chat()` call abort with the exception instead of substituting
a "[System] Agent failed: <reason>" placeholder. -/
theorem agent_failure_cex :
    archPhaseNA "sequential" (defaultSlots alwaysRaise) "x" = Except.error "boom"
      ∧ chatPipeline (fun _ => alwaysRaise) "sequential" (defaultSlots alwaysRaise) "x"
          = Except.error "boom" :=
  ⟨rfl, rfl⟩

/-- C7 (amended): only the pooled architectures catch per-agent exceptions.
In a concurrent round every slot still runs when another raises; a raising
slot's contribution is replaced by `"[System] Agent failed: <reason>"` in the
round's drafts (and it writes nothing to the Whiteboard); in a mixture round
the placeholder is `"Error: <reason>"`.  The drafts list is local to the
round — only successes feed `history_acc`.  Concretely, agents that raise in
round one but answer later do not abort `chat()`.  Elsewhere (sequential,
group_chat, hierarchical, consensus, interpretation) exceptions propagate
(see the counterexample). -/
theorem agent_failure_amended :
    (∀ (slots : List Slot) (r : Nat),
        (runConcurrentRound slots r).drafts = slots.map (fun s =>
          match s.beh s.calls with
          | Except.ok v => "[" ++ s.role ++ "]\n" ++ v
          | Except.error e => "[System] Agent failed: " ++ e)
          ∧ (runConcurrentRound slots r).slots.length = slots.length)
      ∧ (∀ slots : List Slot,
          (mixtureRound slots).2.1 = slots.map (fun s =>
            match s.beh s.calls with
            | Except.ok v => "[" ++ s.role ++ "]\n" ++ v
            | Except.error e => "Error: " ++ e))
      ∧ ((chatPipeline (fun _ => failThenOk) "concurrent" (defaultSlots failThenOk)
            "x").toOption.map (fun p => p.1) = some "fine") := by
  refine ⟨?_, ?_, rfl⟩
  · intro slots r
    constructor
    · induction slots with
      | nil => rfl
      | cons s rest ih =>
        rw [runConcurrentRound, List.map_cons]
        cases hb : s.beh s.calls with
        | ok v => simp [callSlot, hb, ih]
        | error e => simp [callSlot, hb, ih]
    · exact runConcurrentRound_length slots r
  · intro slots
    induction slots with
    | nil => rfl
    | cons s rest ih =>
      rw [mixtureRound, List.map_cons]
      cases hb : s.beh s.calls with
      | ok v => simp [callSlot, hb, ih]
      | error e => simp [callSlot, hb, ih]

theorem digit_repr_len : ∀ r : Fin 10, (toString r.val).data.length = 1 := by decide

theorem digit_repr_inj : ∀ r1 r2 : Fin 10, toString r1.val = toString r2.val → r1 = r2 := by
  decide

theorem string_of_data {s t : String} (h : s.data = t.data) : s = t := by
  cases s
  cases t
  exact congrArg String.mk h

theorem concurrentKey_inj (ro1 ro2 : String) (r1 r2 : Nat) (h1 : r1 < 10) (h2 : r2 < 10)
    (he : concurrentKey ro1 r1 = concurrentKey ro2 r2) : ro1 = ro2 ∧ r1 = r2 := by
  have hd := congrArg String.data he
  rw [show concurrentKey ro1 r1 = ("result_" ++ ro1 ++ "_r") ++ toString r1 from rfl,
    show concurrentKey ro2 r2 = ("result_" ++ ro2 ++ "_r") ++ toString r2 from rfl,
    String.data_append, String.data_append] at hd
  have hlen : (toString r1).data.length = (toString r2).data.length := by
    rw [digit_repr_len ⟨r1, h1⟩, digit_repr_len ⟨r2, h2⟩]
  rcases List.append_inj' hd hlen with ⟨hp, hdd⟩
  have hr : r1 = r2 := by
    have := digit_repr_inj ⟨r1, h1⟩ ⟨r2, h2⟩ (string_of_data hdd)
    exact congrArg Fin.val this
  refine ⟨?_, hr⟩
  have hp2 := (List.append_inj' hp (by decide)).1
  have hro := (List.append_inj hp2 (by decide)).2
  exact string_of_data hro

theorem expectedKeys_length (roles : List String) (r n : Nat) :
    (expectedKeys roles r n).length = n * roles.length := by
  induction n generalizing r with
  | zero => simp [expectedKeys]
  | succ n ih =>
    rw [expectedKeys, List.length_append, List.length_map, ih]
    rw [Nat.succ_mul]
    omega

theorem expectedKeys_mem (roles : List String) (r n : Nat) (key : String)
    (h : key ∈ expectedKeys roles r n) :
    ∃ ro ∈ roles, ∃ k, r ≤ k ∧ k < r + n ∧ key = concurrentKey ro k := by
  induction n generalizing r with
  | zero => cases h
  | succ n ih =>
    rw [expectedKeys] at h
    rcases List.mem_append.mp h with h1 | h2
    · rcases List.mem_map.mp h1 with ⟨ro, hro, he⟩
      exact ⟨ro, hro, r, Nat.le_refl r, by omega, he.symm⟩
    · rcases ih (r+1) h2 with ⟨ro, hro, k, hk1, hk2, hk3⟩
      exact ⟨ro, hro, k, by omega, by omega, hk3⟩

theorem expectedKeys_nodup (roles : List String) (hnd : roles.Nodup) :
    ∀ (r n : Nat), r + n ≤ 10 → (expectedKeys roles r n).Nodup := by
  intro r n
  induction n generalizing r with
  | zero => intro _; exact List.nodup_nil
  | succ n ih =>
    intro hb
    rw [expectedKeys, List.nodup_append]
    refine ⟨?_, ih (r+1) (by omega), ?_⟩
    · refine List.Nodup.map ?_ hnd
      intro a b hab
      exact (concurrentKey_inj a b r r (by omega) (by omega) hab).1
    · intro key hk1 hk2
      rcases List.mem_map.mp hk1 with ⟨ro, _, he⟩
      rcases expectedKeys_mem roles (r+1) n key hk2 with ⟨ro2, _, k, hk3, hk4, hk5⟩
      have := (concurrentKey_inj ro ro2 r k (by omega) (by omega) (by rw [he, hk5])).2
      omega

theorem roundsFor_le : ∀ input : String, roundsFor input ≤ 2 := by
  intro input
  unfold roundsFor
  split <;> omega

/-- C4: the claim as stated fails.  Two agent slots may carry the same role
label (`reassign_roles` accepts arbitrary role lists), and then both writers
of a concurrent round use the same Whiteboard key: with two "worker" slots and
one round, N×R = 2 but only one distinct key `result_worker_r0` is written
(the second write overwrites the first). -/
theorem concurrent_keys_cex :
    ((chatConcurrent [⟨"worker", okBeh "a", 0⟩, ⟨"worker", okBeh "b", 0⟩] "hi").toOption.map
        (fun o => o.wbWrites.map Prod.fst))
        = some ["result_worker_r0", "result_worker_r0"]
      ∧ (["result_worker_r0", "result_worker_r0"] : List String).dedup.length = 1
      ∧ ([⟨"worker", okBeh "a", 0⟩, ⟨"worker", okBeh "b", 0⟩] : List Slot).length
          * roundsFor "hi" = 2 :=
  ⟨rfl, by decide, rfl⟩

/-- C4 (amended): provided the slots carry pairwise-distinct role labels, the
concurrent architecture (with non-raising agents) writes exactly N×R
Whiteboard entries whose keys `result_<role>_r<round>` are pairwise distinct —
one per (slot, round), independent of the completion order of the pool, since
each key is determined by its writer's role and round alone. -/
theorem concurrent_keys_amended (slots : List Slot) (input : String)
    (h : SlotsOk slots) (hne : slots ≠ [])
    (hroles : (slots.map (fun s => s.role)).Nodup) :
    ∃ o : ArchOut, chatConcurrent slots input = Except.ok o
      ∧ (o.wbWrites.map Prod.fst).Nodup
      ∧ o.wbWrites.length = slots.length * roundsFor input
      ∧ (∀ key ∈ o.wbWrites.map Prod.fst,
          ∃ s ∈ slots, ∃ r, r < roundsFor input ∧ key = concurrentKey s.role r) := by
  rcases chatConcurrent_ok slots input h hne with ⟨o, hcc, _, _⟩
  have hwrites : o.wbWrites = (runConcurrentRounds slots 0 (roundsFor input)).2.1 := by
    rw [chatConcurrent] at hcc
    rcases hcd : consensusDecision (runConcurrentRounds slots 0 (roundsFor input)).1 with e | p
    · rw [hcd] at hcc
      cases hcc
    · rw [hcd] at hcc
      rcases p with ⟨d, slots2⟩
      simp only at hcc
      have := Except.ok.inj hcc
      rw [← this]
  have hkeys := runConcurrentRounds_keys slots 0 (roundsFor input) h
  refine ⟨o, hcc, ?_, ?_, ?_⟩
  · rw [hwrites, hkeys]
    refine expectedKeys_nodup _ hroles 0 (roundsFor input) ?_
    have := roundsFor_le input
    omega
  · have hlenk : (o.wbWrites.map Prod.fst).length
        = (expectedKeys (slots.map (fun s => s.role)) 0 (roundsFor input)).length := by
      rw [hwrites, hkeys]
    rw [List.length_map] at hlenk
    rw [hlenk, expectedKeys_length, List.length_map]
    exact Nat.mul_comm _ _
  · intro key hk
    rw [hwrites, hkeys] at hk
    rcases expectedKeys_mem _ 0 (roundsFor input) key hk with ⟨ro, hro, k, _, hk2, hk3⟩
    rcases List.mem_map.mp hro with ⟨s, hs, he⟩
    exact ⟨s, hs, k, by omega, by rw [hk3, he]⟩

/-- C4 witness: the default eight-role pool has distinct roles; on a one-round
input the concurrent architecture writes exactly eight distinct keys. -/
theorem concurrent_keys_witness :
    ∃ o : ArchOut, chatConcurrent (defaultSlots (okBeh "v")) "hi" = Except.ok o
      ∧ (o.wbWrites.map Prod.fst).Nodup
      ∧ o.wbWrites.length = (defaultSlots (okBeh "v")).length * roundsFor "hi"
      ∧ (∀ key ∈ o.wbWrites.map Prod.fst,
          ∃ s ∈ defaultSlots (okBeh "v"), ∃ r, r < roundsFor "hi"
            ∧ key = concurrentKey s.role r) :=
  concurrent_keys_amended (defaultSlots (okBeh "v")) "hi"
    (defaultSlots_ok _ (okBeh_never "v")) (by simp [defaultSlots, defaultRoles]) (by decide)

/-- C5: the §8 scenario fails as stated.  Because a routed state consumes TWO
agent calls (the task call and the routing call), a script answering "FAIL"
once and then "PASS" has its "FAIL" swallowed by B's task call: the router
call already reads "PASS", so the machine visits A, B, end — not
A, B, A, B, end — and, since `end` is not in the state map, returns the
"Error: State end not found." string rather than the joined history. -/
theorem sm_routing_cex :
    ((smRun smABStates "A" [⟨"sm", smScript, 0⟩] 10).toOption.map
        (fun o => (o.visited, o.output)))
      = some ((["A", "B", "end"] : List String), "Error: State end not found.")
    ∧ (["A", "B", "end"] : List String) ≠ ["A", "B", "A", "B", "end"] :=
  ⟨rfl, by decide⟩

/-- C5 (amended): the per-step routing rules hold as specified — in
particular an unknown current state ends the run with the literal error
output — and the §8 scenario holds once the script is aligned with the
engine's two-calls-per-routed-state structure: the machine then visits
A, B, A, B, end within `max_steps = 10`, accumulates the four state-tagged
history entries, and (since `end` is absent from the map) returns
"Error: State end not found." instead of the joined history. -/
theorem sm_routing_amended :
    (∀ (states : List SMState) (fuel : Nat) (cur : String) (hist visited : List String)
        (pool : List Slot), smLookup states cur = none →
        smRunGo states (fuel+1) cur hist visited pool
          = Except.ok ⟨"Error: State " ++ cur ++ " not found.", hist, visited ++ [cur], pool⟩)
    ∧ ((smRun smABStates "A" [⟨"sm", smAlignedScript, 0⟩] 10).toOption.map
        (fun o => (o.visited, o.history, o.output)))
      = some ((["A", "B", "A", "B", "end"] : List String),
          (["[A] work", "[B] work", "[A] work", "[B] work"] : List String),
          "Error: State end not found.") := by
  constructor
  · intro states fuel cur hist visited pool h
    simp only [smRunGo, h]
  · rfl

theorem tgSetResult_pairs (ts : List SubTask) (tid res : String) :
    (tgSetResult ts tid res).map tgPair = ts.map tgPair := by
  unfold tgSetResult
  rw [List.map_map]
  apply List.map_congr_left
  intro t _
  by_cases h : t.id = tid
  · show tgPair (if t.id = tid then { t with result := res } else t) = tgPair t
    rw [if_pos h]
    rfl
  · show tgPair (if t.id = tid then { t with result := res } else t) = tgPair t
    rw [if_neg h]

theorem tgStep_cases (skillO agentO : Nat → String) (st : TGState) (p : Bool)
    (t : SubTask) :
    tgStep skillO agentO (st, p) t = (st, p)
    ∨ (t.id ∉ st.completed
       ∧ (∀ d ∈ t.dependencies, d ∈ st.completed)
       ∧ tgStep skillO agentO (st, p) t
          = (⟨tgSetResult st.tasks t.id (agentO st.agentCalls),
              st.completed ++ [t.id],
              st.results ++ ["## Task [" ++ t.id ++ "] - " ++ skillO st.skillCalls
                ++ "\n" ++ agentO st.agentCalls],
              st.invocations ++ [t.id],
              st.skillCalls + 1, st.agentCalls + 1⟩, true)) := by
  have hdef : tgStep skillO agentO (st, p) t
      = if st.completed.contains t.id then (st, p)
        else if t.dependencies.all (fun d => st.completed.contains d) then
          (⟨tgSetResult st.tasks t.id (agentO st.agentCalls),
            st.completed ++ [t.id],
            st.results ++ ["## Task [" ++ t.id ++ "] - " ++ skillO st.skillCalls
              ++ "\n" ++ agentO st.agentCalls],
            st.invocations ++ [t.id],
            st.skillCalls + 1, st.agentCalls + 1⟩, true)
        else (st, p) := rfl
  by_cases h1 : st.completed.contains t.id = true
  · left
    rw [hdef, if_pos h1]
  · by_cases h2 : t.dependencies.all (fun d => st.completed.contains d) = true
    · right
      refine ⟨by simpa using h1, ?_, ?_⟩
      · intro d hd
        have := List.all_eq_true.mp h2 d hd
        simpa using this
      · rw [hdef, if_neg h1, if_pos h2]
    · left
      rw [hdef, if_neg h1, if_neg h2]

theorem tgFold_inv (tasks0 : List SubTask) (skillO agentO : Nat → String) :
    ∀ (ts : List SubTask) (st : TGState) (p : Bool),
      TGInv tasks0 st → (∀ t ∈ ts, tgPair t ∈ tasks0.map tgPair) →
      TGInv tasks0 (ts.foldl (tgStep skillO agentO) (st, p)).1
      ∧ st.completed.length ≤ (ts.foldl (tgStep skillO agentO) (st, p)).1.completed.length
      ∧ (p = true → (ts.foldl (tgStep skillO agentO) (st, p)).2 = true)
      ∧ ((ts.foldl (tgStep skillO agentO) (st, p)).2 = true
          → p = true
            ∨ st.completed.length
                < (ts.foldl (tgStep skillO agentO) (st, p)).1.completed.length)
      ∧ ((ts.foldl (tgStep skillO agentO) (st, p)).2 = false
          → ts.foldl (tgStep skillO agentO) (st, p) = (st, p)) := by
  intro ts
  induction ts with
  | nil =>
    intro st p hinv _
    exact ⟨hinv, Nat.le_refl _, fun h => h, fun h => Or.inl h, fun _ => rfl⟩
  | cons t ts ih =>
    intro st p hinv hts
    rw [List.foldl_cons]
    rcases tgStep_cases skillO agentO st p t with hstep | ⟨hnm, hdeps, hstep⟩
    · rw [hstep]
      exact ih st p hinv (fun u hu => hts u (List.mem_cons_of_mem t hu))
    · rw [hstep]
      obtain ⟨h1, h2, h3, h4, h5, h6⟩ := hinv
      have hnm2 : t.id ∉ st.invocations := h1 ▸ hnm
      have hinv2 : TGInv tasks0
          ⟨tgSetResult st.tasks t.id (agentO st.agentCalls),
            st.completed ++ [t.id],
            st.results ++ ["## Task [" ++ t.id ++ "] - " ++ skillO st.skillCalls
              ++ "\n" ++ agentO st.agentCalls],
            st.invocations ++ [t.id],
            st.skillCalls + 1, st.agentCalls + 1⟩ := by
        refine ⟨by rw [h1], ?_, ?_, ?_, ?_, ?_⟩
        · simp [List.nodup_append, h2, hnm2]
        · rw [tgSetResult_pairs]
          exact h3
        · simp [h4]
        · intro i hi
          rcases List.mem_append.mp hi with hi' | hi'
          · exact h5 i hi'
          · have hit : i = t.id := by simpa using hi'
            rcases List.mem_map.mp (hts t (List.mem_cons_self t ts)) with ⟨t0, ht0, hp0⟩
            have hid : t0.id = t.id := congrArg Prod.fst hp0
            have hdp : t0.dependencies = t.dependencies := congrArg Prod.snd hp0
            refine ⟨t0, ht0, by rw [hid, hit], ?_⟩
            intro d hd
            rw [hdp] at hd
            have hdc : d ∈ st.completed := hdeps d hd
            rw [h1] at hdc
            rcases h5 d hdc with ⟨t1, ht1, hid1, _⟩
            rw [← hid1]
            exact List.mem_map_of_mem (fun u => u.id) ht1
        · intro r hr
          rcases List.mem_append.mp hr with hr' | hr'
          · exact h6 r hr'
          · have hrt : r = "## Task [" ++ t.id ++ "] - " ++ skillO st.skillCalls
                ++ "\n" ++ agentO st.agentCalls := by simpa using hr'
            refine ⟨(t.id).data ++ "] - ".data ++ (skillO st.skillCalls).data
              ++ "\n".data ++ (agentO st.agentCalls).data, ?_⟩
            rw [hrt]
            simp [String.data_append, List.append_assoc]
      have hres := ih _ true hinv2 (fun u hu => hts u (List.mem_cons_of_mem t hu))
      have hle2 : st.completed.length
          < (st.completed ++ [t.id]).length := by simp
      refine ⟨hres.1, ?_, ?_, ?_, ?_⟩
      · exact Nat.le_of_lt (Nat.lt_of_lt_of_le hle2 hres.2.1)
      · intro _
        exact hres.2.2.1 rfl
      · intro _
        exact Or.inr (Nat.lt_of_lt_of_le hle2 hres.2.1)
      · intro hf
        rw [hres.2.2.1 rfl] at hf
        exact absurd hf (by decide)

theorem tgPass_inv (tasks0 : List SubTask) (skillO agentO : Nat → String)
    (st : TGState) (hinv : TGInv tasks0 st) :
    TGInv tasks0 (tgPass skillO agentO st).1
    ∧ st.completed.length ≤ (tgPass skillO agentO st).1.completed.length
    ∧ ((tgPass skillO agentO st).2 = true
        → st.completed.length < (tgPass skillO agentO st).1.completed.length)
    ∧ ((tgPass skillO agentO st).2 = false → tgPass skillO agentO st = (st, false)) := by
  have hts : ∀ t ∈ st.tasks, tgPair t ∈ tasks0.map tgPair := by
    intro t ht
    rw [← hinv.2.2.1]
    exact List.mem_map_of_mem tgPair ht
  have h := tgFold_inv tasks0 skillO agentO st.tasks st false hinv hts
  refine ⟨h.1, h.2.1, ?_, h.2.2.2.2⟩
  intro hp
  rcases h.2.2.2.1 hp with h' | h'
  · exact absurd h' (by decide)
  · exact h'

theorem tgLoop_inv (tasks0 : List SubTask) (skillO agentO : Nat → String) :
    ∀ (fuel : Nat) (st : TGState), TGInv tasks0 st →
      TGInv tasks0 (tgLoop skillO agentO fuel st) := by
  intro fuel
  induction fuel with
  | zero => intro st h; exact h
  | succ fuel ih =>
    intro st h
    simp only [tgLoop]
    by_cases hg : st.completed.length < st.tasks.length
    · rw [if_pos hg]
      have hpa := tgPass_inv tasks0 skillO agentO st h
      rcases hp : tgPass skillO agentO st with ⟨st2, pr⟩
      rw [hp] at hpa
      cases pr
      · have he := hpa.2.2.2 rfl
        have hst2 : st2 = st := congrArg Prod.fst he
        show TGInv tasks0 st2
        rw [hst2]
        exact h
      · exact ih st2 hpa.1
    · rw [if_neg hg]
      exact h

theorem tgLoop_stall (tasks0 : List SubTask) (skillO agentO : Nat → String) :
    ∀ (fuel : Nat) (st : TGState), TGInv tasks0 st →
      st.tasks.length < st.completed.length + fuel →
      (tgLoop skillO agentO fuel st).tasks.length
          ≤ (tgLoop skillO agentO fuel st).completed.length
        ∨ tgPass skillO agentO (tgLoop skillO agentO fuel st)
            = (tgLoop skillO agentO fuel st, false) := by
  intro fuel
  induction fuel with
  | zero =>
    intro st _ hf
    left
    exact Nat.le_of_lt (by simpa using hf)
  | succ fuel ih =>
    intro st h hf
    simp only [tgLoop]
    by_cases hg : st.completed.length < st.tasks.length
    · rw [if_pos hg]
      have hpa := tgPass_inv tasks0 skillO agentO st h
      rcases hp : tgPass skillO agentO st with ⟨st2, pr⟩
      rw [hp] at hpa
      cases pr
      · have he := hpa.2.2.2 rfl
        have hst2 : st2 = st := congrArg Prod.fst he
        right
        show tgPass skillO agentO st2 = (st2, false)
        rw [hst2]
        rw [hst2] at hp
        exact hp
      · have hinv2 : TGInv tasks0 st2 := hpa.1
        have hlt : st.completed.length < st2.completed.length := hpa.2.2.1 rfl
        have hlen : st2.tasks.length = st.tasks.length := by
          have h3 := hinv2.2.2.1
          have h3' := h.2.2.1
          have := congrArg List.length (h3.trans h3'.symm)
          simpa using this
        exact ih st2 hinv2 (by omega)
    · rw [if_neg hg]
      left
      omega

theorem tgInit_inv (tasks : List SubTask) : TGInv tasks (tgInit tasks) := by
  refine ⟨rfl, List.nodup_nil, rfl, rfl, ?_, ?_⟩ <;> intro x hx <;> cases hx

theorem tgExecute_inv (skillO agentO : Nat → String) (tasks : List SubTask) :
    TGInv tasks (tgExecute skillO agentO tasks) :=
  tgLoop_inv tasks skillO agentO (tasks.length * 2) (tgInit tasks) (tgInit_inv tasks)

/-- Distinct-id task maps determine tasks by their id. -/
theorem tgIds_nodup_inj {tasks : List SubTask} (hnd : (tgIds tasks).Nodup) :
    ∀ a ∈ tasks, ∀ b ∈ tasks, a.id = b.id → a = b := by
  induction tasks with
  | nil => intro a ha; cases ha
  | cons x l ih =>
    intro a ha b hb he
    rw [tgIds, List.map_cons, List.nodup_cons] at hnd
    rcases List.mem_cons.mp ha with rfl | ha' <;> rcases List.mem_cons.mp hb with rfl | hb'
    · rfl
    · have hmem : a.id ∈ l.map (fun u => u.id) := by
        rw [he]
        exact List.mem_map_of_mem _ hb'
      exact absurd hmem hnd.1
    · have hmem : b.id ∈ l.map (fun u => u.id) := by
        rw [← he]
        exact List.mem_map_of_mem _ ha'
      exact absurd hmem hnd.1
    · exact ih hnd.2 a ha' b hb' he

theorem go_data (sep : String) : ∀ (as : List String) (acc : String),
    ∃ l, (String.intercalate.go acc sep as).data = acc.data ++ l := by
  intro as
  induction as with
  | nil =>
    intro acc
    refine ⟨[], ?_⟩
    rw [show String.intercalate.go acc sep [] = acc from rfl]
    simp
  | cons a as ih =>
    intro acc
    rcases ih (acc ++ sep ++ a) with ⟨l, hl⟩
    refine ⟨sep.data ++ a.data ++ l, ?_⟩
    rw [show String.intercalate.go acc sep (a :: as)
        = String.intercalate.go (acc ++ sep ++ a) sep as from rfl, hl]
    simp [String.data_append]

theorem intercalate_head (sep a : String) (rest : List String) :
    ∃ l, (String.intercalate sep (a :: rest)).data = a.data ++ l := by
  rw [show String.intercalate sep (a :: rest) = String.intercalate.go a sep rest from rfl]
  exact go_data sep rest a

/-- Whatever the planner produced and however the oracles answer, `execute`
returns either the empty string (no task ran) or a report opening with the
literal "## Task [" header. -/
theorem tgExecute_output_shape (skillO agentO : Nat → String) (tasks : List SubTask) :
    tgOutput (tgExecute skillO agentO tasks) = ""
    ∨ ∃ l, (tgOutput (tgExecute skillO agentO tasks)).data = ("## Task [").data ++ l := by
  have hinv : TGInv tasks (tgExecute skillO agentO tasks) := tgExecute_inv skillO agentO tasks
  rcases hres : (tgExecute skillO agentO tasks).results with _ | ⟨r, rest⟩
  · left
    rw [tgOutput, hres]
    rfl
  · right
    have h6 := hinv.2.2.2.2.2
    rw [hres] at h6
    rcases h6 r (List.mem_cons_self r rest) with ⟨l, hl⟩
    rcases intercalate_head "\n\n" r rest with ⟨l2, hl2⟩
    refine ⟨l ++ l2, ?_⟩
    rw [tgOutput, hres, hl2, hl, List.append_assoc]

/-- C8: `HierarchicalTaskGraph.execute` terminates gracefully.  For any task
map with distinct ids (a Python dict guarantees this) and any oracle answers
for `find_best_skill` and `agent.step`: the agent is invoked at most once per
task (the invocation trace is duplicate-free, matches the `agent.step` call
count, and is bounded by the task count); a task with a dependency naming no
task id is never invoked; and the returned state is saturated — either every
task completed or one more full pass would complete nothing (the early-break
case), so cyclic or unsatisfiable tasks are silently dropped rather than
looped on or raised about.  The concrete two-task cycle t1↔t2 runs zero
agent calls and returns the empty report. -/
theorem task_graph_termination (tasks : List SubTask) (skillO agentO : Nat → String)
    (hnd : (tgIds tasks).Nodup) :
    (tgExecute skillO agentO tasks).invocations.Nodup
    ∧ (tgExecute skillO agentO tasks).agentCalls
        = (tgExecute skillO agentO tasks).invocations.length
    ∧ (tgExecute skillO agentO tasks).invocations.length ≤ tasks.length
    ∧ (∀ t ∈ tasks, (∃ d ∈ t.dependencies, d ∉ tgIds tasks)
        → t.id ∉ (tgExecute skillO agentO tasks).invocations)
    ∧ ((tgExecute skillO agentO tasks).tasks.length
          ≤ (tgExecute skillO agentO tasks).completed.length
        ∨ tgPass skillO agentO (tgExecute skillO agentO tasks)
            = (tgExecute skillO agentO tasks, false))
    ∧ (tgExecute skillO agentO
        [⟨"t1", "a", ["t2"], ""⟩, ⟨"t2", "b", ["t1"], ""⟩]).invocations = []
    ∧ tgOutput (tgExecute skillO agentO
        [⟨"t1", "a", ["t2"], ""⟩, ⟨"t2", "b", ["t1"], ""⟩]) = "" := by
  have hinv := tgExecute_inv skillO agentO tasks
  obtain ⟨h1, h2, h3, h4, h5, _⟩ := hinv
  have hsub : (tgExecute skillO agentO tasks).invocations ⊆ tgIds tasks := by
    intro i hi
    rcases h5 i hi with ⟨t, ht, hid, _⟩
    rw [← hid]
    exact List.mem_map_of_mem (fun u => u.id) ht
  refine ⟨h2, h4.symm, ?_, ?_, ?_, rfl, rfl⟩
  · have := (List.subperm_of_subset h2 hsub).length_le
    simpa [tgIds] using this
  · intro t ht hd hmem
    rcases hd with ⟨d, hdm, hdn⟩
    rcases h5 t.id hmem with ⟨t0, ht0, hid0, hdeps0⟩
    have ht0t : t0 = t := tgIds_nodup_inj hnd t0 ht0 t ht hid0
    rw [ht0t] at hdeps0
    exact hdn (hdeps0 d hdm)
  · rcases Nat.eq_zero_or_pos tasks.length with hz | hpos
    · left
      rw [List.length_eq_zero] at hz
      rw [hz]
      exact Nat.le_refl _
    · exact tgLoop_stall tasks skillO agentO (tasks.length * 2) (tgInit tasks)
        (tgInit_inv tasks) (by simp [tgInit]; omega)

/-- C8 witness: the singleton task map with one dependency-free task. -/
theorem task_graph_termination_witness :
    (tgExecute (fun _ => "llm_reasoning") (fun _ => "done")
        [⟨"t1", "do it", [], ""⟩]).invocations.Nodup :=
  (task_graph_termination [⟨"t1", "do it", [], ""⟩] (fun _ => "llm_reasoning")
    (fun _ => "done") (by decide)).1

/-- C6: the claim is false of the code.  `_chat_long_horizon` is a
placeholder whose body is exactly `return self._chat_sequential(session,
user_input)`: no `HierarchicalTaskGraph` is ever constructed by `chat()`.
Concretely, with one planner agent answering "hello", the long-horizon
architecture returns the sequential transcript "[planner]\nhello" — a string
no `execute` run can produce, since every `execute` output is either empty or
opens with the literal "## Task [" header. -/
theorem long_horizon_cex :
    (chatLongHorizon [⟨"planner", okBeh "hello", 0⟩] "goal").toOption.map
        (fun p => p.1) = some "[planner]\nhello"
    ∧ (∀ (skillO agentO : Nat → String) (tasks : List SubTask),
        tgOutput (tgExecute skillO agentO tasks) ≠ "[planner]\nhello") := by
  refine ⟨rfl, ?_⟩
  intro skillO agentO tasks hout
  rcases tgExecute_output_shape skillO agentO tasks with h | ⟨l, hl⟩
  · rw [hout] at h
    exact absurd h (by decide)
  · rw [hout] at hl
    have ha : ("[planner]\nhello".data).head? = some '[' := rfl
    have hb : (("## Task [").data ++ l).head? = some '#' := rfl
    rw [hl, hb] at ha
    exact absurd ha (by decide)

/-- C6 (amended): with architecture "long_horizon", `chat()`'s architecture
phase behaves exactly like "sequential" — `_chat_long_horizon` forwards to
`_chat_sequential` verbatim; the Task-Graph Planner (§4.5) exists but is
never invoked from `chat()`. -/
theorem long_horizon_amended (slots : List Slot) (input : String) :
    chatLongHorizon slots input = chatSequential slots input
    ∧ archPhaseNA "long_horizon" slots input = archPhaseNA "sequential" slots input := by
  constructor
  · rfl
  · rfl

end Swarmbot
